import Mathlib

/-!
# idgen: document identifiers with an unbiased random suffix

A shallow embedding of `idgen.go` (package `idgen`) and the properties of its
rejection-sampling suffix generator `cryptoRandomString` and of the formatter
`DocID` / `generateDocId`.

Modelling decisions.

* A Go `string` is modelled as the list of its runes (`GoString`). The only
  strings the code builds byte by byte come from `charset`, which is ASCII, so
  a byte of `out` and a rune of `string(out)` coincide.
* `crypto/rand.Read(buf)` is an external effect. The entropy source is a
  script: the list of the outcomes of the successive calls, each either the
  content the buffer was filled with or the error returned.
* A Go function returning `(string, error)` returns a record holding both
  values; the part of the script that was not consumed is returned too, so the
  number of reads is observable.
* Run-time panics (index out of range) and a script that ends while the loop
  still wants to read are faults, kept apart from Go-level errors. The script
  lists the calls that returned: a call that aborts the process (what a failing
  source does since Go 1.24, where `rand.Read` returns no error) ends it.
* `uuid.New().String()`, `time.Now().UnixNano()` and the Unicode tables behind
  `strings.ToLower` are collaborators living outside the repository; they are
  fields of the environment `Env`.
-/

namespace Idgen

/-! ## Data model -/

/-- A byte delivered by the entropy source. -/
abbrev Byte := Fin 256

/-- A Go string, as the sequence of its runes. -/
abbrev GoString := List Char

/-- A Go `error` value, identified by its message. -/
structure GoError where
  msg : String
deriving DecidableEq, Repr

/-- Abnormal ends of a run that are not Go-level errors. -/
inductive Fault where
  /-- A slice or string index was out of range (a Go run-time panic). -/
  | indexOutOfRange
  /-- The entropy script ended while the loop still needed a read: the source
  delivered nothing further, as when the process is aborted inside `rand.Read`. -/
  | entropyScriptExhausted
deriving DecidableEq, Repr

/-- Outcome of one call `rand.Read(buf)`. -/
inductive ReadOutcome where
  /-- The call succeeded and `buf` now holds these bytes. -/
  | filled (buf : List Byte)
  /-- The call returned this error. -/
  | failed (err : GoError)
deriving DecidableEq, Repr

/-- The entropy source: the outcomes of the successive calls of `rand.Read`. -/
abbrev Entropy := List ReadOutcome

/-- The pair `(string, error)` returned by `cryptoRandomString`, together with
the part of the entropy script that was not read. -/
structure StrResult where
  str : GoString
  err : Option GoError
  rest : Entropy
deriving DecidableEq, Repr

/-- Source: `const charset = "abc...XYZ0123456789"` (idgen.go, line 18). -/
def charset : GoString :=
  "abcdefghijklmnopqrstuvwxyzABCDEFGHIJKLMNOPQRSTUVWXYZ0123456789".toList

/-- Source: `const max = byte(248)` (idgen.go, line 68). -/
def max : Nat := 248

/-- The zero byte that `make([]byte, n)` fills a fresh slice with. -/
def zeroByte : Char := Char.ofNat 0

/-! ## The suffix generator -/

/-- Source: the inner loop of `cryptoRandomString` (idgen.go, lines 76-85),
`for _, b := range buf`, run on the current `out` and `i`. It returns the new
`out` and `i`. A byte at or above `max` is skipped; any other byte writes
`charset[b%62]` to `out[i]` and advances `i`, and the loop breaks as soon as
`i == n`. Both index operations are bounds-checked, as Go does. -/
def scanBuf (n : Nat) : List Byte → List Char → Nat → Except Fault (List Char × Nat)
  | [], out, i => .ok (out, i)
  | b :: bs, out, i =>
    if max ≤ b.val then scanBuf n bs out i
    else
      match charset[b.val % 62]? with
      | none => .error .indexOutOfRange
      | some c =>
        if i < out.length then
          if i + 1 = n then .ok (out.set i c, i + 1)
          else scanBuf n bs (out.set i c) (i + 1)
        else .error .indexOutOfRange

/-- Source: the outer loop of `cryptoRandomString` (idgen.go, lines 72-88),
`for i < n`, followed by `return string(out), nil`. Each round reads one block
from the entropy source; a failed read returns `("", err)` at once. -/
def readLoop (n : Nat) : Entropy → List Char → Nat → Except Fault StrResult
  | [], out, i =>
    if i < n then .error .entropyScriptExhausted else .ok ⟨out, none, []⟩
  | r :: src, out, i =>
    if i < n then
      match r with
      | .failed e => .ok ⟨[], some e, src⟩
      | .filled buf =>
        match scanBuf n buf out i with
        | .error f => .error f
        | .ok (out1, i1) => readLoop n src out1 i1
    else .ok ⟨out, none, r :: src⟩

/-- Source: `func cryptoRandomString(n int) (string, error)` (idgen.go, lines
59-89). A non-positive `n` is refused before anything is allocated or read.
`out` starts as `n` zero bytes and `i` as 0. The buffer `buf` of `n*2` bytes is
what each successful read of the script fills; the loop ranges over all of it,
whatever its length. -/
def cryptoRandomString (n : Int) (src : Entropy) : Except Fault StrResult :=
  if n ≤ 0 then .ok ⟨[], some ⟨"length must be positive"⟩, src⟩
  else readLoop n.toNat src (List.replicate n.toNat zeroByte) 0

/-! ## The formatter -/

/-- The collaborators of `generateDocId` that live outside the repository. -/
structure Env where
  /-- The text `uuid.New().String()` returns. -/
  uuidString : GoString
  /-- The integer `time.Now().UnixNano()` returns. -/
  unixNano : Int
  /-- The table `unicode.ToLower` consults for runes above U+007F. -/
  lowerTable : Char → Char
  /-- The entropy source behind `crypto/rand`. -/
  entropy : Entropy

/-- Go `unicode.ToLower`: ASCII letters by arithmetic, other ASCII runes
unchanged, runes above U+007F through the Unicode table. -/
def toLowerRune (table : Char → Char) (c : Char) : Char :=
  if c.toNat < 128 then
    if 'A'.toNat ≤ c.toNat ∧ c.toNat ≤ 'Z'.toNat then Char.ofNat (c.toNat + 32) else c
  else table c

/-- Go `strings.ToLower`: every rune is mapped through `unicode.ToLower`. -/
def toLower (table : Char → Char) (s : GoString) : GoString :=
  s.map (toLowerRune table)

/-- Go `strings.ReplaceAll(s, old, new)` for one-rune `old` and `new`. -/
def replaceAll (s : GoString) (old new : Char) : GoString :=
  s.map (fun c => if c = old then new else c)

/-- The decimal digit character of `d < 10`. -/
def digitChar (d : Nat) : Char := Char.ofNat ('0'.toNat + d)

/-- Go `%d` on a non-negative integer: its base-10 digits, most significant
first, `0` rendered as "0". -/
def formatNat (k : Nat) : GoString :=
  if k = 0 then ['0'] else ((Nat.digits 10 k).reverse).map digitChar

/-- Go `%d` on a signed integer. -/
def formatInt (v : Int) : GoString :=
  if v < 0 then '-' :: formatNat v.natAbs else formatNat v.natAbs

/-- Source: lines 28-34 of `generateDocId`: the empty prefix becomes "doc",
then `strings.ToLower(strings.ReplaceAll(typePrefix, " ", "_"))`. -/
def normalizePrefix (table : Char → Char) (pfx : GoString) : GoString :=
  let typePrefix := if pfx = [] then "doc".toList else pfx
  toLower table (replaceAll typePrefix ' ' '_')

/-- Go `fmt.Sprintf("%s:%s", a, b)`. -/
def sprintfColon (a b : GoString) : GoString := a ++ ":".toList ++ b

/-- Source: `func generateDocId(prefix string, format string) string`
(idgen.go, lines 25-56). The error returned by `cryptoRandomString` is bound to
the blank identifier in all three branches that call it. -/
def generateDocId (env : Env) (pfx : GoString) (format : GoString) : Except Fault GoString :=
  let typePrefix := normalizePrefix env.lowerTable pfx
  if format = "uuid".toList then
    .ok (sprintfColon typePrefix env.uuidString)
  else if format = "timestamp".toList then
    .ok (sprintfColon typePrefix (formatInt env.unixNano))
  else if format = "short".toList then
    match cryptoRandomString 10 env.entropy with
    | .error f => .error f
    | .ok r => .ok (sprintfColon typePrefix r.str)
  else if format = "crypto".toList then
    match cryptoRandomString 16 env.entropy with
    | .error f => .error f
    | .ok r => .ok (sprintfColon typePrefix r.str)
  else
    match cryptoRandomString 10 env.entropy with
    | .error f => .error f
    | .ok r => .ok (sprintfColon typePrefix r.str)

/-- Source: `func DocID(prefix string, format string) string` (idgen.go, lines
20-22). -/
def DocID (env : Env) (pfx : GoString) (format : GoString) : Except Fault GoString :=
  generateDocId env pfx format

/-! ## Vocabulary of the statements -/

/-- The character `charset[b%62]` a byte is mapped to (line 80). -/
def charOf (b : Byte) : Char := charset.getD (b.val % 62) zeroByte

/-- The accepted bytes of a block, in order: those below `max`. -/
def accepted (buf : List Byte) : List Byte := buf.filter (fun b => b.val < max)

/-- The bytes of a run of successful reads, concatenated in reading order. -/
def stream (blocks : List (List Byte)) : List Byte := blocks.flatten

/-- The script of a run of successful reads. -/
def reads (blocks : List (List Byte)) : Entropy := blocks.map ReadOutcome.filled

/-- The characters a block contributes: its accepted bytes, mapped. -/
def acceptedChars (buf : List Byte) : List Char := (accepted buf).map charOf

/-- The suffix strategies of the dispatch table: the text each format value
selects. The random formats take the string `cryptoRandomString` returns,
whatever error comes with it. -/
def suffixStrategy (env : Env) (format : GoString) : Except Fault GoString :=
  if format = "uuid".toList then .ok env.uuidString
  else if format = "timestamp".toList then .ok (formatInt env.unixNano)
  else if format = "crypto".toList then (cryptoRandomString 16 env.entropy).map (fun r => r.str)
  else (cryptoRandomString 10 env.entropy).map (fun r => r.str)

/-- The length `generateDocId` passes to `cryptoRandomString` for a format it
dispatches to the suffix generator (lines 45, 49 and 53). -/
def dispatchedLength (format : GoString) : Nat :=
  if format = "crypto".toList then 16 else 10

/-- The normalization policy in the order the specification gives it: the
empty prefix becomes "doc", then the whole prefix is lowercased, then every
space is replaced by an underscore. -/
def normalizePrefixSpec (table : Char → Char) (pfx : GoString) : GoString :=
  let defaulted := if pfx = [] then "doc".toList else pfx
  let lowered := toLower table defaulted
  replaceAll lowered ' ' '_'

/-- The digits of Go `strconv.ParseInt(s, 10, 64)`: the value of a run of
decimal digits read from the left onto `acc`, `none` at any other character. -/
def parseDigits : GoString → Nat → Option Nat
  | [], acc => some acc
  | c :: cs, acc =>
    if '0'.toNat ≤ c.toNat ∧ c.toNat ≤ '9'.toNat then
      parseDigits cs (acc * 10 + (c.toNat - '0'.toNat))
    else none

/-- Go `strconv.ParseInt(s, 10, 64)`: an optional sign, then at least one
character, all decimal digits, the value within the range of `int64`; `none`
stands for the error result. -/
def parseInt (s : GoString) : Option Int :=
  match s with
  | [] => none
  | c :: r =>
    let digits := if c = '-' ∨ c = '+' then r else c :: r
    if digits = [] then none
    else
      match parseDigits digits 0 with
      | none => none
      | some k =>
        let v : Int := if c = '-' then -(k : Int) else (k : Int)
        if -(2 : Int) ^ 63 ≤ v ∧ v < (2 : Int) ^ 63 then some v else none

/-- Go `strings.Cut(s, sep)` for a one-rune `sep`: the text before and after
the first `sep`, `none` when `s` holds no `sep`. -/
def cutAt (sep : Char) : GoString → Option (GoString × GoString)
  | [] => none
  | c :: cs =>
    if c = sep then some ([], cs)
    else (cutAt sep cs).map (fun p => (c :: p.1, p.2))

/-- Go `strings.SplitN(s, sep, 2)` for a one-rune `sep`: `[s]` when `s` holds
no `sep`, else the text before the first `sep` and the text after it. -/
def splitN2 (s : GoString) (sep : Char) : List GoString :=
  match cutAt sep s with
  | none => [s]
  | some (a, b) => [a, b]

/-- An accepted byte value, one of the 248 values below `max`, as a byte. -/
def acceptedByte (a : Fin 248) : Byte := Fin.castLE (by decide) a

/-! ## Basic facts about the alphabet -/

theorem charset_length : charset.length = 62 := by decide

theorem charset_nodup : charset.Nodup := by decide

theorem charset_lookup (b : Byte) : charset[b.val % 62]? = some (charOf b) := by
  have h : b.val % 62 < charset.length := by rw [charset_length]; omega
  rw [charOf, List.getD_eq_getElem _ _ h, List.getElem?_eq_getElem h]

theorem charOf_mem (b : Byte) : charOf b ∈ charset := by
  have h : b.val % 62 < charset.length := by rw [charset_length]; omega
  rw [charOf, List.getD_eq_getElem _ _ h]
  exact List.getElem_mem h

theorem acceptedChars_nil : acceptedChars [] = [] := rfl

theorem acceptedChars_cons_reject (b : Byte) (bs : List Byte) (h : max ≤ b.val) :
    acceptedChars (b :: bs) = acceptedChars bs := by
  have : ¬ b.val < max := by omega
  simp [acceptedChars, accepted, List.filter_cons, this]

theorem acceptedChars_cons_accept (b : Byte) (bs : List Byte) (h : ¬ max ≤ b.val) :
    acceptedChars (b :: bs) = charOf b :: acceptedChars bs := by
  have : b.val < max := by omega
  simp [acceptedChars, accepted, List.filter_cons, this]

theorem set_at_boundary (w : List Char) (k : Nat) (c : Char) :
    (w ++ List.replicate (k + 1) zeroByte).set w.length c
      = (w ++ [c]) ++ List.replicate k zeroByte := by
  rw [List.set_append]
  simp [List.replicate_succ]

theorem scanBuf_spec (n : Nat) : ∀ (buf : List Byte) (w : List Char) (k : Nat),
    0 < k → w.length + k = n →
    scanBuf n buf (w ++ List.replicate k zeroByte) w.length =
      .ok (w ++ (acceptedChars buf).take k
              ++ List.replicate (k - ((acceptedChars buf).take k).length) zeroByte,
           w.length + ((acceptedChars buf).take k).length) := by
  intro buf
  induction buf with
  | nil => intro w k _ _; simp [scanBuf, acceptedChars_nil]
  | cons b bs ih =>
    intro w k hk hn
    by_cases hb : max ≤ b.val
    · rw [scanBuf, if_pos hb, acceptedChars_cons_reject b bs hb]
      exact ih w k hk hn
    · rw [scanBuf, if_neg hb, acceptedChars_cons_accept b bs hb, charset_lookup]
      obtain ⟨j, rfl⟩ : ∃ j, k = j + 1 := ⟨k - 1, by omega⟩
      have hlt : w.length < (w ++ List.replicate (j + 1) zeroByte).length := by
        simp
      simp only [if_pos hlt, set_at_boundary]
      by_cases hlast : w.length + 1 = n
      · have hj : j = 0 := by omega
        subst hj
        simp [hlast]
      · have hj : 0 < j := by omega
        have := ih (w ++ [charOf b]) j hj (by simp; omega)
        simp only [List.length_append, List.length_singleton] at this
        rw [if_neg hlast, this]
        simp [List.take_succ_cons, Nat.add_assoc, Nat.add_comm 1]

theorem acceptedChars_append (a b : List Byte) :
    acceptedChars (a ++ b) = acceptedChars a ++ acceptedChars b := by
  simp [acceptedChars, accepted]

theorem acceptedChars_length (buf : List Byte) :
    (acceptedChars buf).length = (accepted buf).length := by
  simp [acceptedChars]

theorem acceptedChars_subset (buf : List Byte) : ∀ c ∈ acceptedChars buf, c ∈ charset := by
  intro c hc
  simp only [acceptedChars, List.mem_map] at hc
  obtain ⟨b, _, rfl⟩ := hc
  exact charOf_mem b

theorem stream_cons (b : List Byte) (bs : List (List Byte)) :
    stream (b :: bs) = b ++ stream bs := by
  simp [stream]

/-- Once `i` has reached `n` the outer loop exits without reading. -/
theorem readLoop_done (n : Nat) (src : Entropy) (out : List Char) (i : Nat) (h : n ≤ i) :
    readLoop n src out i = .ok ⟨out, none, src⟩ := by
  have hi : ¬ i < n := by omega
  cases src <;> simp [readLoop, hi]

/-- One successful round of the outer loop. -/
theorem readLoop_filled (n : Nat) (buf : List Byte) (src : Entropy) (w : List Char) (k : Nat)
    (hk : 0 < k) (hn : w.length + k = n) :
    readLoop n (.filled buf :: src) (w ++ List.replicate k zeroByte) w.length =
      readLoop n src
        ((w ++ (acceptedChars buf).take k)
          ++ List.replicate (k - ((acceptedChars buf).take k).length) zeroByte)
        (w ++ (acceptedChars buf).take k).length := by
  have hi : w.length < n := by omega
  rw [readLoop, if_pos hi]
  simp only [scanBuf_spec n buf w k hk hn, List.length_append]

/-- One failed round of the outer loop. -/
theorem readLoop_failed (n : Nat) (e : GoError) (src : Entropy) (out : List Char) (i : Nat)
    (hi : i < n) : readLoop n (.failed e :: src) out i = .ok ⟨[], some e, src⟩ := by
  rw [readLoop, if_pos hi]

theorem readLoop_success (n : Nat) : ∀ (blocks : List (List Byte)) (tl : Entropy)
    (w : List Char) (k : Nat), w.length + k = n →
    k ≤ (acceptedChars (stream blocks)).length →
    ∃ rest, readLoop n (reads blocks ++ tl) (w ++ List.replicate k zeroByte) w.length =
      .ok ⟨w ++ (acceptedChars (stream blocks)).take k, none, rest⟩ := by
  intro blocks
  induction blocks with
  | nil =>
    intro tl w k hn hk
    have hk0 : k = 0 := by simpa [stream, acceptedChars, accepted] using hk
    subst hk0
    exact ⟨reads [] ++ tl, by rw [readLoop_done n _ _ _ (by omega)]; simp⟩
  | cons b bs ih =>
    intro tl w k hn hk
    rcases Nat.eq_zero_or_pos k with hk0 | hkpos
    · subst hk0
      exact ⟨reads (b :: bs) ++ tl, by rw [readLoop_done n _ _ _ (by omega)]; simp⟩
    · rw [stream_cons, acceptedChars_append] at hk ⊢
      simp only [reads, List.map_cons, List.cons_append]
      rw [readLoop_filled n b _ w k hkpos hn]
      have hlen : ((acceptedChars b).take k).length = min k (acceptedChars b).length :=
        List.length_take _ _
      obtain ⟨rest, hrest⟩ := ih tl (w ++ (acceptedChars b).take k)
        (k - ((acceptedChars b).take k).length)
        (by simp only [List.length_append]; omega)
        (by simp only [List.length_append] at hk; omega)
      refine ⟨rest, ?_⟩
      simp only [reads] at hrest
      rw [hrest, List.take_append_eq_append_take, List.append_assoc]
      have hsub : k - ((acceptedChars b).take k).length = k - (acceptedChars b).length := by
        omega
      rw [hsub]

theorem readLoop_entropy_failure (n : Nat) : ∀ (blocks : List (List Byte)) (e : GoError)
    (tl : Entropy) (w : List Char) (k : Nat), w.length + k = n →
    (acceptedChars (stream blocks)).length < k →
    readLoop n (reads blocks ++ .failed e :: tl) (w ++ List.replicate k zeroByte) w.length =
      .ok ⟨[], some e, tl⟩ := by
  intro blocks
  induction blocks with
  | nil =>
    intro e tl w k hn hk
    simp only [reads, List.map_nil, List.nil_append]
    exact readLoop_failed n e tl _ _ (by omega)
  | cons b bs ih =>
    intro e tl w k hn hk
    rw [stream_cons, acceptedChars_append, List.length_append] at hk
    simp only [reads, List.map_cons, List.cons_append]
    rw [readLoop_filled n b _ w k (by omega) hn]
    have hlen : ((acceptedChars b).take k).length = min k (acceptedChars b).length :=
      List.length_take _ _
    have := ih e tl (w ++ (acceptedChars b).take k)
        (k - ((acceptedChars b).take k).length)
        (by simp only [List.length_append]; omega)
        (by omega)
    simpa only [reads] using this

/-- Whatever the script holds, a return without error delivers a full buffer
of alphabet characters. -/
theorem readLoop_inv (n : Nat) : ∀ (src : Entropy) (w : List Char) (k : Nat) (r : StrResult),
    w.length + k = n → (∀ c ∈ w, c ∈ charset) →
    readLoop n src (w ++ List.replicate k zeroByte) w.length = .ok r → r.err = none →
    r.str.length = n ∧ ∀ c ∈ r.str, c ∈ charset := by
  intro src
  induction src with
  | nil =>
    intro w k r hn hw hrun herr
    by_cases hi : w.length < n
    · simp [readLoop, hi] at hrun
    · have hk0 : k = 0 := by omega
      subst hk0
      rw [readLoop_done n _ _ _ (by omega)] at hrun
      cases hrun
      simpa using ⟨hn, hw⟩
  | cons r0 src ih =>
    intro w k r hn hw hrun herr
    rcases Nat.eq_zero_or_pos k with hk0 | hkpos
    · subst hk0
      rw [readLoop_done n _ _ _ (by omega)] at hrun
      cases hrun
      simpa using ⟨hn, hw⟩
    · cases r0 with
      | failed e =>
        rw [readLoop_failed n e src _ _ (by omega)] at hrun
        cases hrun
        simp at herr
      | filled buf =>
        rw [readLoop_filled n buf src w k hkpos hn] at hrun
        have hlen : ((acceptedChars buf).take k).length = min k (acceptedChars buf).length :=
          List.length_take _ _
        refine ih (w ++ (acceptedChars buf).take k) _ r
          (by simp only [List.length_append]; omega) ?_ hrun herr
        intro c hc
        rcases List.mem_append.mp hc with h | h
        · exact hw c h
        · exact acceptedChars_subset buf c (List.mem_of_mem_take h)


/-! ## The suffix generator: shared lemmas -/

theorem cryptoRandomString_of_supply (n : Nat) (hn : 0 < n)
    (blocks : List (List Byte)) (tl : Entropy)
    (hsupply : n ≤ (accepted (stream blocks)).length) :
    ∃ rest, cryptoRandomString (n : Int) (reads blocks ++ tl) =
      .ok ⟨((accepted (stream blocks)).take n).map charOf, none, rest⟩ := by
  have hpos : ¬ ((n : Int) ≤ 0) := by omega
  obtain ⟨rest, hrest⟩ := readLoop_success n blocks tl [] n (by simp)
    (by rw [acceptedChars_length]; exact hsupply)
  refine ⟨rest, ?_⟩
  simp only [List.nil_append, List.length_nil] at hrest
  rw [cryptoRandomString, if_neg hpos, Int.toNat_ofNat, hrest, acceptedChars, List.map_take]

theorem cryptoRandomString_of_failure (n : Nat) (blocks : List (List Byte)) (e : GoError)
    (tl : Entropy) (hshort : (accepted (stream blocks)).length < n) :
    cryptoRandomString (n : Int) (reads blocks ++ .failed e :: tl) = .ok ⟨[], some e, tl⟩ := by
  have hpos : ¬ ((n : Int) ≤ 0) := by omega
  have h := readLoop_entropy_failure n blocks e tl [] n (by simp)
    (by rw [acceptedChars_length]; exact hshort)
  simp only [List.nil_append, List.length_nil] at h
  rw [cryptoRandomString, if_neg hpos, Int.toNat_ofNat, h]

theorem cryptoRandomString_ok_inv (n : Nat) (hn : 0 < n) (src : Entropy) (r : StrResult)
    (hrun : cryptoRandomString (n : Int) src = .ok r) (herr : r.err = none) :
    r.str.length = n ∧ ∀ c ∈ r.str, c ∈ charset := by
  have hpos : ¬ ((n : Int) ≤ 0) := by omega
  rw [cryptoRandomString, if_neg hpos, Int.toNat_ofNat] at hrun
  exact readLoop_inv n src [] n r (by simp) (by simp) (by simpa using hrun) herr

theorem charset_alphanum : ∀ c ∈ charset, c.isAlphanum = true := by decide

theorem zeroByte_not_mem_charset : zeroByte ∉ charset := by decide

/-! ## The suffix generator: results -/

/-- C1. For every `n > 0` and every run of successful reads whose blocks hold
at least `n` bytes below 248, `cryptoRandomString(n)` returns, without error,
exactly the string obtained from the concatenation of the blocks by deleting
every byte at or above 248, keeping the first `n` remaining bytes in order, and
mapping each kept byte `b` to `charset[b%62]`. What follows the blocks in the
script does not matter. -/
theorem cryptoRandomString_eq_filter_take_map (n : Nat) (hn : 0 < n)
    (blocks : List (List Byte)) (tl : Entropy)
    (hsupply : n ≤ (accepted (stream blocks)).length) :
    ∃ rest, cryptoRandomString (n : Int) (reads blocks ++ tl) =
      .ok ⟨((accepted (stream blocks)).take n).map charOf, none, rest⟩ :=
  cryptoRandomString_of_supply n hn blocks tl hsupply

/-- Witness of C1: two blocks of four bytes for `n = 2`; the first block holds
one accepted byte, the second completes the string. -/
theorem cryptoRandomString_eq_filter_take_map_witness :
    ∃ rest, cryptoRandomString ((2 : Nat) : Int)
        (reads [[250, 0, 255, 255], [61, 62, 1, 2]] ++ []) =
      .ok ⟨((accepted (stream [[250, 0, 255, 255], [61, 62, 1, 2]])).take 2).map charOf,
           none, rest⟩ :=
  cryptoRandomString_eq_filter_take_map 2 (by decide)
    [[250, 0, 255, 255], [61, 62, 1, 2]] [] (by decide)

/-- C2. For every `n > 0`, on every entropy script, whenever
`cryptoRandomString(n)` returns without error the returned string has length
exactly `n`. -/
theorem cryptoRandomString_length (n : Nat) (hn : 0 < n) (src : Entropy) (r : StrResult)
    (hrun : cryptoRandomString (n : Int) src = .ok r) (herr : r.err = none) :
    r.str.length = n :=
  (cryptoRandomString_ok_inv n hn src r hrun herr).1

/-- Witness of C2: `n = 2` on one four-byte block. -/
theorem cryptoRandomString_length_witness :
    (StrResult.mk ['a', '9'] none []).str.length = 2 :=
  cryptoRandomString_length 2 (by decide) [.filled [250, 0, 61, 62]] ⟨['a', '9'], none, []⟩
    rfl rfl

/-- C3. For every `n > 0` and every content of the entropy script, whenever
`cryptoRandomString(n)` returns without error every character of the returned
string belongs to `charset`, hence is an ASCII letter or digit; the zero byte
of the freshly allocated buffer does not occur in it. -/
theorem cryptoRandomString_alphabet (n : Nat) (hn : 0 < n) (src : Entropy) (r : StrResult)
    (hrun : cryptoRandomString (n : Int) src = .ok r) (herr : r.err = none) :
    (∀ c ∈ r.str, c ∈ charset ∧ c.isAlphanum = true) ∧ zeroByte ∉ r.str := by
  have hmem := (cryptoRandomString_ok_inv n hn src r hrun herr).2
  exact ⟨fun c hc => ⟨hmem c hc, charset_alphanum c (hmem c hc)⟩,
    fun hz => zeroByte_not_mem_charset (hmem _ hz)⟩

/-- Witness of C3: `n = 2` on a block that starts with a rejected byte. -/
theorem cryptoRandomString_alphabet_witness :
    (∀ c ∈ (StrResult.mk ['a', '9'] none []).str, c ∈ charset ∧ c.isAlphanum = true)
      ∧ zeroByte ∉ (StrResult.mk ['a', '9'] none []).str :=
  cryptoRandomString_alphabet 2 (by decide) [.filled [250, 0, 61, 62]] ⟨['a', '9'], none, []⟩
    rfl rfl

/-- C6. If a read of the entropy source fails while fewer than `n` characters
have been accepted (the blocks read before it hold fewer than `n` bytes below
248; there may be none), `cryptoRandomString(n)` returns that error together
with the empty string. The hypothesis forces `n > 0`. -/
theorem cryptoRandomString_read_failure (n : Nat) (blocks : List (List Byte)) (e : GoError)
    (tl : Entropy) (hshort : (accepted (stream blocks)).length < n) :
    cryptoRandomString (n : Int) (reads blocks ++ .failed e :: tl) = .ok ⟨[], some e, tl⟩ :=
  cryptoRandomString_of_failure n blocks e tl hshort

/-- Witness of C6: for `n = 3` the first block yields two characters and the
second read fails. -/
theorem cryptoRandomString_read_failure_witness :
    cryptoRandomString ((3 : Nat) : Int)
        (reads [[250, 0, 61, 255, 255, 255]] ++ .failed ⟨"entropy unavailable"⟩ :: []) =
      .ok ⟨[], some ⟨"entropy unavailable"⟩, []⟩ :=
  cryptoRandomString_read_failure 3 [[250, 0, 61, 255, 255, 255]] ⟨"entropy unavailable"⟩ []
    (by decide)

/-- C8. For every `n <= 0`, `cryptoRandomString(n)` returns the empty string
with the error "length must be positive", and the entropy script is handed
back untouched: nothing was read. -/
theorem cryptoRandomString_nonpositive (n : Int) (hn : n ≤ 0) (src : Entropy) :
    cryptoRandomString n src = .ok ⟨[], some ⟨"length must be positive"⟩, src⟩ := by
  rw [cryptoRandomString, if_pos hn]

/-- Witness of C8: `n = -1` on a script whose first read would fail. -/
theorem cryptoRandomString_nonpositive_witness :
    cryptoRandomString (-1) [.failed ⟨"entropy unavailable"⟩] =
      .ok ⟨[], some ⟨"length must be positive"⟩, [.failed ⟨"entropy unavailable"⟩]⟩ :=
  cryptoRandomString_nonpositive (-1) (by decide) [.failed ⟨"entropy unavailable"⟩]

/-! ## Uniformity of the per-byte mapping -/

theorem charOf_eq_getElem (b : Byte) (h : b.val % 62 < charset.length) :
    charOf b = charset[b.val % 62] := by
  rw [charOf, List.getD_eq_getElem _ _ h]

/-- Among the bytes below 248, the ones mapped to `charset[k]` are the four
bytes `k`, `k + 62`, `k + 124` and `k + 186`. -/
theorem charOf_fiber (k : Nat) (hk : k < charset.length) (b : Byte) :
    (b.val < max ∧ charOf b = charset[k]) ↔
      (b.val = k ∨ b.val = k + 62 ∨ b.val = k + 124 ∨ b.val = k + 186) := by
  have hlen := charset_length
  have hb : b.val % 62 < charset.length := by rw [hlen]; omega
  rw [charOf_eq_getElem b hb, charset_nodup.getElem_inj_iff]
  simp only [max]
  omega

theorem fiber_card (c : Char) (hc : c ∈ charset) :
    (Finset.univ.filter (fun b : Byte => b.val < max ∧ charOf b = c)).card = 4 := by
  obtain ⟨k, hk, rfl⟩ := List.mem_iff_getElem.mp hc
  have hk62 : k < 62 := by rw [← charset_length]; exact hk
  have hset : Finset.univ.filter (fun b : Byte => b.val < max ∧ charOf b = charset[k])
      = {(⟨k, by omega⟩ : Byte), ⟨k + 62, by omega⟩, ⟨k + 124, by omega⟩, ⟨k + 186, by omega⟩} := by
    ext b
    simp only [Finset.mem_filter, Finset.mem_univ, true_and, Finset.mem_insert,
      Finset.mem_singleton, charOf_fiber k hk b, Fin.ext_iff]
  rw [hset]
  rw [Finset.card_insert_of_not_mem, Finset.card_insert_of_not_mem,
    Finset.card_insert_of_not_mem, Finset.card_singleton]
  all_goals simp [Fin.ext_iff]

/-- C4. `charset` consists of exactly 62 pairwise distinct characters: 26
lowercase letters, 26 uppercase letters and 10 digits. Of the 256 byte values
248 are accepted, and for every character of `charset` exactly 4 accepted byte
values `b` satisfy `charset[b%62] =` that character; so an accepted byte drawn
uniformly yields each symbol with probability `4/248 = 1/62`. -/
theorem charset_uniform :
    charset.length = 62 ∧ charset.Nodup
      ∧ (charset.filter Char.isLower).length = 26
      ∧ (charset.filter Char.isUpper).length = 26
      ∧ (charset.filter Char.isDigit).length = 10
      ∧ (Finset.univ.filter (fun b : Byte => b.val < max)).card = 248
      ∧ (∀ c ∈ charset,
          (Finset.univ.filter (fun b : Byte => b.val < max ∧ charOf b = c)).card = 4)
      ∧ ((4 : ℚ) / 248 = 1 / 62) := by
  refine ⟨charset_length, charset_nodup, by decide, by decide, by decide, ?_, fiber_card,
    by norm_num⟩
  have hset : Finset.univ.filter (fun b : Byte => b.val < max) = Finset.Iio (⟨248, by omega⟩ : Byte) := by
    ext b
    simp only [Finset.mem_filter, Finset.mem_univ, true_and, Finset.mem_Iio, Fin.lt_def, max]
  rw [hset, Fin.card_Iio]

theorem fiber248_card (c : Char) (hc : c ∈ charset) :
    (Finset.univ.filter (fun a : Fin 248 => charOf (acceptedByte a) = c)).card = 4 := by
  obtain ⟨k, hk, rfl⟩ := List.mem_iff_getElem.mp hc
  have hk62 : k < 62 := by rw [← charset_length]; exact hk
  have hset : Finset.univ.filter (fun a : Fin 248 => charOf (acceptedByte a) = charset[k])
      = {(⟨k, by omega⟩ : Fin 248), ⟨k + 62, by omega⟩, ⟨k + 124, by omega⟩,
          ⟨k + 186, by omega⟩} := by
    ext a
    have hfib := charOf_fiber k hk (acceptedByte a)
    have hval : (acceptedByte a).val = a.val := rfl
    have hlt : (acceptedByte a).val < max := by rw [hval]; exact a.isLt
    simp only [Finset.mem_filter, Finset.mem_univ, true_and, Finset.mem_insert,
      Finset.mem_singleton, Fin.ext_iff]
    rw [← hval, ← hfib]
    exact ⟨fun h => ⟨hlt, h⟩, fun h => h.2⟩
  rw [hset]
  rw [Finset.card_insert_of_not_mem, Finset.card_insert_of_not_mem,
    Finset.card_insert_of_not_mem, Finset.card_singleton]
  all_goals simp [Fin.ext_iff]

theorem accepted_map_acceptedByte (l : List (Fin 248)) :
    accepted (l.map acceptedByte) = l.map acceptedByte := by
  rw [accepted, List.filter_eq_self]
  intro b hb
  obtain ⟨a, _, rfl⟩ := List.mem_map.mp hb
  have hval : (acceptedByte a).val = a.val := rfl
  have : (acceptedByte a).val < max := by rw [hval]; exact a.isLt
  simpa using this

/-- A block that starts with `n` accepted bytes settles the whole string in one
read. -/
theorem cryptoRandomString_one_block (n : Nat) (hn : 0 < n) (v : Fin n → Fin 248)
    (pad : List Byte) (tl : Entropy) :
    cryptoRandomString (n : Int) (.filled ((List.ofFn v).map acceptedByte ++ pad) :: tl) =
      .ok ⟨(List.ofFn v).map (fun a => charOf (acceptedByte a)), none, tl⟩ := by
  have hpos : ¬ ((n : Int) ≤ 0) := by omega
  have hchars : (acceptedChars ((List.ofFn v).map acceptedByte ++ pad)).take n
      = (List.ofFn v).map (fun a => charOf (acceptedByte a)) := by
    rw [acceptedChars_append, acceptedChars, accepted_map_acceptedByte, List.map_map]
    apply List.take_left'
    simp
  have h := readLoop_filled n ((List.ofFn v).map acceptedByte ++ pad) tl [] n hn (by simp)
  rw [hchars] at h
  simp only [List.nil_append, List.length_nil] at h
  rw [cryptoRandomString, if_neg hpos, Int.toNat_ofNat, h, readLoop_done n _ _ _ (by simp)]
  simp

/-- C5. For every `n > 0` and every string `s` of length `n` over `charset`,
exactly `4^n` of the `248^n` sequences of `n` accepted byte values make
`cryptoRandomString(n)` return `s` (the sequence being the start of the first
block read); hence every such string has the same probability
`4^n / 248^n = 1 / 62^n`. -/
theorem cryptoRandomString_equiprobable (n : Nat) (hn : 0 < n) (s : GoString)
    (hlen : s.length = n) (hs : ∀ c ∈ s, c ∈ charset) (pad : List Byte) (tl : Entropy) :
    Nat.card {v : Fin n → Fin 248 //
        cryptoRandomString (n : Int) (.filled ((List.ofFn v).map acceptedByte ++ pad) :: tl)
          = .ok ⟨s, none, tl⟩} = 4 ^ n
      ∧ Nat.card (Fin n → Fin 248) = 248 ^ n
      ∧ ((4 : ℚ) ^ n / 248 ^ n = 1 / 62 ^ n) := by
  subst hlen
  refine ⟨?_, by rw [Nat.card_eq_fintype_card, Fintype.card_fun, Fintype.card_fin,
    Fintype.card_fin], ?_⟩
  · have hiff : ∀ v : Fin s.length → Fin 248,
        (cryptoRandomString (s.length : Int)
            (.filled ((List.ofFn v).map acceptedByte ++ pad) :: tl) = .ok ⟨s, none, tl⟩)
          ↔ ∀ i, charOf (acceptedByte (v i)) = s.get i := by
      intro v
      rw [cryptoRandomString_one_block s.length hn v pad tl]
      constructor
      · intro h i
        have hstr : (List.ofFn v).map (fun a => charOf (acceptedByte a)) = s := by
          injection h with h1
          injection h1
        have hfn : List.ofFn (fun i => charOf (acceptedByte (v i))) = List.ofFn s.get := by
          rw [List.ofFn_get]
          rw [List.map_ofFn] at hstr
          exact hstr
        exact congrFun (List.ofFn_injective hfn) i
      · intro h
        have hfn : (fun i => charOf (acceptedByte (v i))) = s.get := funext h
        have hstr : (List.ofFn v).map (fun a => charOf (acceptedByte a)) = s := by
          rw [List.map_ofFn]
          exact (congrArg List.ofFn hfn).trans (List.ofFn_get s)
        rw [hstr]
    rw [Nat.card_congr (Equiv.subtypeEquivRight hiff), Nat.card_eq_fintype_card,
      Fintype.card_subtype]
    have hpi : Finset.univ.filter (fun v : Fin s.length → Fin 248 =>
          ∀ i, charOf (acceptedByte (v i)) = s.get i)
        = Fintype.piFinset (fun i : Fin s.length =>
            Finset.univ.filter (fun a : Fin 248 => charOf (acceptedByte a) = s.get i)) := by
      ext v
      simp [Fintype.mem_piFinset]
    rw [hpi, Fintype.card_piFinset]
    have hfib : ∀ i : Fin s.length,
        (Finset.univ.filter (fun a : Fin 248 => charOf (acceptedByte a) = s.get i)).card = 4 :=
      fun i => fiber248_card _ (hs _ (List.get_mem s i.val i.isLt))
    simp only [hfib, Finset.prod_const, Finset.card_univ, Fintype.card_fin]
  · have h : (248 : ℚ) ^ s.length = 4 ^ s.length * 62 ^ s.length := by
      rw [← mul_pow]; norm_num
    rw [h]
    field_simp

/-- Witness of C5: `n = 1`, the one-character string "a". -/
theorem cryptoRandomString_equiprobable_witness :
    Nat.card {v : Fin 1 → Fin 248 //
        cryptoRandomString ((1 : Nat) : Int)
            (.filled ((List.ofFn v).map acceptedByte ++ [255]) :: [])
          = .ok ⟨['a'], none, []⟩} = 4 ^ 1
      ∧ Nat.card (Fin 1 → Fin 248) = 248 ^ 1
      ∧ ((4 : ℚ) ^ 1 / 248 ^ 1 = 1 / 62 ^ 1) :=
  cryptoRandomString_equiprobable 1 (by decide) ['a'] rfl (by decide) [255] []

/-! ## The formatter: results -/

theorem toLowerRune_underscore (table : Char → Char) : toLowerRune table '_' = '_' := by
  simp [toLowerRune]

theorem toLowerRune_replace (table : Char → Char) (c : Char) :
    toLowerRune table (if c = ' ' then '_' else c)
      = if c = ' ' then '_' else toLowerRune table c := by
  by_cases h : c = ' '
  · simp [h, toLowerRune_underscore]
  · simp [h]

theorem normalizePrefix_nil (table : Char → Char) :
    normalizePrefix table [] = "doc".toList := by
  simp [normalizePrefix, toLower, replaceAll, toLowerRune]

theorem normalizePrefix_of_ne_nil (table : Char → Char) (pfx : GoString) (h : pfx ≠ []) :
    normalizePrefix table pfx
      = pfx.map (fun c => if c = ' ' then '_' else toLowerRune table c) := by
  simp only [normalizePrefix, if_neg h, toLower, replaceAll, List.map_map]
  apply List.map_congr_left
  intro c _
  exact toLowerRune_replace table c

/-- The three branches of `generateDocId` that call the suffix generator, with
the value of `cryptoRandomString` plugged in. -/
theorem generateDocId_random (env : Env) (pfx format : GoString)
    (huuid : format ≠ "uuid".toList) (hts : format ≠ "timestamp".toList) (r : StrResult)
    (hrun : cryptoRandomString (dispatchedLength format : Nat) env.entropy = .ok r) :
    generateDocId env pfx format = .ok (sprintfColon (normalizePrefix env.lowerTable pfx) r.str) := by
  unfold generateDocId
  simp only [if_neg huuid, if_neg hts]
  by_cases hshort : format = "short".toList
  · have hlen : dispatchedLength format = 10 := by rw [hshort]; decide
    rw [hlen] at hrun
    have hrun10 : cryptoRandomString 10 env.entropy = .ok r := hrun
    simp only [if_pos hshort, hrun10]
  · by_cases hcrypto : format = "crypto".toList
    · have hlen : dispatchedLength format = 16 := by rw [hcrypto]; decide
      rw [hlen] at hrun
      have hrun16 : cryptoRandomString 16 env.entropy = .ok r := hrun
      simp only [if_neg hshort, if_pos hcrypto, hrun16]
    · have hlen : dispatchedLength format = 10 := by
        rw [dispatchedLength, if_neg hcrypto]
      rw [hlen] at hrun
      have hrun10 : cryptoRandomString 10 env.entropy = .ok r := hrun
      simp only [if_neg hshort, if_neg hcrypto, hrun10]

/-- What `DocID` does when a read of the entropy source fails before the
dispatched number of characters has been accepted, for any format but "uuid"
and "timestamp": it returns the normalized prefix followed by a colon and
nothing else. The error is not reported. -/
theorem DocID_of_entropy_failure (u : GoString) (t : Int) (table : Char → Char)
    (pfx format : GoString) (blocks : List (List Byte)) (e : GoError) (tl : Entropy)
    (huuid : format ≠ "uuid".toList) (hts : format ≠ "timestamp".toList)
    (hshort : (accepted (stream blocks)).length < dispatchedLength format) :
    DocID ⟨u, t, table, reads blocks ++ .failed e :: tl⟩ pfx format
      = .ok (normalizePrefix table pfx ++ ":".toList) := by
  have hrun := cryptoRandomString_of_failure (dispatchedLength format) blocks e tl hshort
  have h := generateDocId_random ⟨u, t, table, reads blocks ++ .failed e :: tl⟩ pfx format
    huuid hts _ hrun
  simpa [DocID, sprintfColon] using h

/-- Where `rand.Read` can return an error (Go 1.23 and earlier): with the first
read returning one, `DocID("user", format)` returns normally for the formats
"short", "crypto" and "" and the identifier is "user:", its suffix empty. The
error `cryptoRandomString` reports is dropped at lines 45, 49 and 53. -/
theorem DocID_swallows_entropy_failure :
    DocID ⟨"0-0".toList, 0, id, [.failed ⟨"entropy unavailable"⟩]⟩ "user".toList "short".toList
        = .ok "user:".toList
      ∧ DocID ⟨"0-0".toList, 0, id, [.failed ⟨"entropy unavailable"⟩]⟩ "user".toList
          "crypto".toList = .ok "user:".toList
      ∧ DocID ⟨"0-0".toList, 0, id, [.failed ⟨"entropy unavailable"⟩]⟩ "user".toList []
        = .ok "user:".toList :=
  ⟨rfl, rfl, rfl⟩

/-- C9. For every prefix and every format, `DocID(prefix, format)` is
`N ++ ":" ++ suffix`, where `suffix` is the output of the strategy the format
selects and `N` is "doc" for the empty prefix and otherwise the prefix with
every space replaced by an underscore and every other rune lowercased, rune
for rune, so that `N` is as long as the prefix. Nothing is escaped and the
identifier returned is never empty. -/
theorem DocID_shape (env : Env) (pfx format : GoString) :
    DocID env pfx format
        = (suffixStrategy env format).map
            (fun sfx => normalizePrefix env.lowerTable pfx ++ ':' :: sfx)
      ∧ normalizePrefix env.lowerTable pfx
        = (if pfx = [] then "doc".toList
           else pfx.map (fun c => if c = ' ' then '_' else toLowerRune env.lowerTable c))
      ∧ (normalizePrefix env.lowerTable pfx).length = (if pfx = [] then 3 else pfx.length)
      ∧ DocID env pfx format ≠ .ok [] := by
  have hshape : DocID env pfx format
      = (suffixStrategy env format).map
          (fun sfx => normalizePrefix env.lowerTable pfx ++ ':' :: sfx) := by
    unfold DocID generateDocId suffixStrategy sprintfColon
    by_cases huuid : format = "uuid".toList
    · simp [huuid, Except.map]
    · by_cases hts : format = "timestamp".toList
      · simp [huuid, hts, Except.map]
      · by_cases hshort : format = "short".toList
        · have hcrypto : format ≠ "crypto".toList := by rw [hshort]; decide
          simp only [if_neg huuid, if_neg hts, if_pos hshort, if_neg hcrypto]
          cases cryptoRandomString 10 env.entropy <;> simp [Except.map]
        · by_cases hcrypto : format = "crypto".toList
          · simp only [if_neg huuid, if_neg hts, if_neg hshort, if_pos hcrypto]
            cases cryptoRandomString 16 env.entropy <;> simp [Except.map]
          · simp only [if_neg huuid, if_neg hts, if_neg hshort, if_neg hcrypto]
            cases cryptoRandomString 10 env.entropy <;> simp [Except.map]
  have hnorm : normalizePrefix env.lowerTable pfx
      = (if pfx = [] then "doc".toList
         else pfx.map (fun c => if c = ' ' then '_' else toLowerRune env.lowerTable c)) := by
    by_cases h : pfx = []
    · rw [if_pos h, h, normalizePrefix_nil]
    · rw [if_neg h, normalizePrefix_of_ne_nil _ _ h]
  refine ⟨hshape, hnorm, ?_, ?_⟩
  · rw [hnorm]
    by_cases h : pfx = []
    · simp [h]
    · simp [h]
  · rw [hshape]
    cases suffixStrategy env format <;> simp [Except.map]

/-- C10. For every prefix, when the reads of the entropy source succeed and
supply enough accepted bytes (10 for "short", 16 for "crypto"), `DocID` returns
the normalized prefix, a colon and a suffix of exactly 10 characters for
"short" and exactly 16 for "crypto", every one of them a character of
`charset`. -/
theorem DocID_suffix_length (u : GoString) (t : Int) (table : Char → Char) (pfx : GoString) :
    (∀ (blocks : List (List Byte)) (tl : Entropy), 10 ≤ (accepted (stream blocks)).length →
        ∃ sfx, DocID ⟨u, t, table, reads blocks ++ tl⟩ pfx "short".toList
              = .ok (normalizePrefix table pfx ++ ':' :: sfx)
          ∧ sfx.length = 10 ∧ ∀ c ∈ sfx, c ∈ charset)
      ∧ (∀ (blocks : List (List Byte)) (tl : Entropy), 16 ≤ (accepted (stream blocks)).length →
        ∃ sfx, DocID ⟨u, t, table, reads blocks ++ tl⟩ pfx "crypto".toList
              = .ok (normalizePrefix table pfx ++ ':' :: sfx)
          ∧ sfx.length = 16 ∧ ∀ c ∈ sfx, c ∈ charset) := by
  constructor
  · intro blocks tl h
    obtain ⟨rest, hrun⟩ := cryptoRandomString_of_supply 10 (by decide) blocks tl h
    have hinv := cryptoRandomString_ok_inv 10 (by decide) _ _ hrun rfl
    have hdoc := generateDocId_random ⟨u, t, table, reads blocks ++ tl⟩ pfx "short".toList
      (by decide) (by decide) _ hrun
    exact ⟨_, by simpa [DocID, sprintfColon] using hdoc, hinv.1, hinv.2⟩
  · intro blocks tl h
    obtain ⟨rest, hrun⟩ := cryptoRandomString_of_supply 16 (by decide) blocks tl h
    have hinv := cryptoRandomString_ok_inv 16 (by decide) _ _ hrun rfl
    have hdoc := generateDocId_random ⟨u, t, table, reads blocks ++ tl⟩ pfx "crypto".toList
      (by decide) (by decide) _ hrun
    exact ⟨_, by simpa [DocID, sprintfColon] using hdoc, hinv.1, hinv.2⟩

/-- Witness of C10: prefix "Invoice Data"; "short" on two 20-byte blocks, the
first holding six accepted bytes, and "crypto" on one 32-byte block holding
nineteen. -/
theorem DocID_suffix_length_witness :
    (∃ sfx, DocID ⟨"0-0".toList, 0, id,
          reads [[0, 250, 1, 2, 3, 4, 5, 255, 255, 255, 255, 255, 255, 255, 255, 255, 255, 255,
                  255, 255],
                 [6, 7, 8, 9, 10, 11, 12, 13, 14, 15, 16, 17, 18, 19, 20, 21, 22, 23, 24, 25]]
            ++ []⟩ "Invoice Data".toList "short".toList
          = .ok (normalizePrefix id "Invoice Data".toList ++ ':' :: sfx)
        ∧ sfx.length = 10 ∧ ∀ c ∈ sfx, c ∈ charset)
      ∧ (∃ sfx, DocID ⟨"0-0".toList, 0, id,
          reads [[0, 250, 1, 2, 3, 4, 5, 6, 7, 8, 9, 255, 10, 11, 12, 13,
                  14, 15, 61, 62, 248, 247, 249, 251, 252, 253, 254, 255, 255, 255, 255, 255]]
            ++ []⟩ "Invoice Data".toList "crypto".toList
          = .ok (normalizePrefix id "Invoice Data".toList ++ ':' :: sfx)
        ∧ sfx.length = 16 ∧ ∀ c ∈ sfx, c ∈ charset) :=
  ⟨(DocID_suffix_length "0-0".toList 0 id "Invoice Data".toList).1
      [[0, 250, 1, 2, 3, 4, 5, 255, 255, 255, 255, 255, 255, 255, 255, 255, 255, 255, 255, 255],
       [6, 7, 8, 9, 10, 11, 12, 13, 14, 15, 16, 17, 18, 19, 20, 21, 22, 23, 24, 25]] []
      (by decide),
   (DocID_suffix_length "0-0".toList 0 id "Invoice Data".toList).2
      [[0, 250, 1, 2, 3, 4, 5, 6, 7, 8, 9, 255, 10, 11, 12, 13,
        14, 15, 61, 62, 248, 247, 249, 251, 252, 253, 254, 255, 255, 255, 255, 255]] []
      (by decide)⟩

/-! ## The suffix generator: index safety and the number of reads -/

/-- With `out` holding `n` cells of which the first `i` are written, the outer
loop never indexes out of range: it returns, or the script runs out. -/
theorem readLoop_no_panic (n : Nat) : ∀ (src : Entropy) (w : List Char) (k : Nat),
    w.length + k = n →
    readLoop n src (w ++ List.replicate k zeroByte) w.length ≠ .error .indexOutOfRange := by
  intro src
  induction src with
  | nil =>
    intro w k hn
    by_cases hi : w.length < n <;> simp [readLoop, hi]
  | cons r0 src ih =>
    intro w k hn
    rcases Nat.eq_zero_or_pos k with hk0 | hkpos
    · subst hk0
      rw [readLoop_done n _ _ _ (by omega)]
      simp
    · cases r0 with
      | failed e =>
        rw [readLoop_failed n e src _ _ (by omega)]
        simp
      | filled buf =>
        rw [readLoop_filled n buf src w k hkpos hn]
        have hlen : ((acceptedChars buf).take k).length = min k (acceptedChars buf).length :=
          List.length_take _ _
        exact ih (w ++ (acceptedChars buf).take k) _ (by simp only [List.length_append]; omega)

theorem stream_take_succ (b : List Byte) (bs : List (List Byte)) (j : Nat) :
    stream ((b :: bs).take (j + 1)) = b ++ stream (bs.take j) := by
  simp [stream]

/-- The outer loop stops reading with the block that delivers the last
character: the script handed back starts right after the least number of blocks
that hold `k` accepted bytes. -/
theorem readLoop_reads (n : Nat) : ∀ (blocks : List (List Byte)) (tl : Entropy)
    (w : List Char) (k : Nat), w.length + k = n → 0 < k →
    k ≤ (acceptedChars (stream blocks)).length →
    ∃ m, 1 ≤ m ∧ m ≤ blocks.length
      ∧ k ≤ (acceptedChars (stream (blocks.take m))).length
      ∧ (∀ j, j < m → (acceptedChars (stream (blocks.take j))).length < k)
      ∧ readLoop n (reads blocks ++ tl) (w ++ List.replicate k zeroByte) w.length =
          .ok ⟨w ++ (acceptedChars (stream blocks)).take k, none, reads (blocks.drop m) ++ tl⟩ := by
  intro blocks
  induction blocks with
  | nil =>
    intro tl w k _ hk hsupply
    simp [stream, acceptedChars, accepted] at hsupply
    omega
  | cons b bs ih =>
    intro tl w k hn hk hsupply
    rw [stream_cons, acceptedChars_append, List.length_append] at hsupply
    have hlen : ((acceptedChars b).take k).length = min k (acceptedChars b).length :=
      List.length_take _ _
    have hstep := readLoop_filled n b (reads bs ++ tl) w k hk hn
    by_cases hfull : k ≤ (acceptedChars b).length
    · refine ⟨1, le_refl 1, by simp, ?_, ?_, ?_⟩
      · simpa [stream] using hfull
      · intro j hj
        have hj0 : j = 0 := by omega
        subst hj0
        simpa [stream, acceptedChars, accepted] using hk
      · have hdone := readLoop_done n (reads bs ++ tl)
          ((w ++ (acceptedChars b).take k)
            ++ List.replicate (k - ((acceptedChars b).take k).length) zeroByte)
          (w ++ (acceptedChars b).take k).length
          (by simp only [List.length_append]; omega)
        have hzero : k - ((acceptedChars b).take k).length = 0 := by omega
        simp only [reads, List.map_cons, List.cons_append] at hstep ⊢
        rw [hstep]
        simp only [reads] at hdone
        rw [hdone, hzero, stream_cons, acceptedChars_append,
          List.take_append_of_le_length hfull]
        simp
    · have hk' : 0 < k - ((acceptedChars b).take k).length := by omega
      obtain ⟨m, hm1, hmlen, hmsupply, hmleast, hrun⟩ := ih tl (w ++ (acceptedChars b).take k)
        (k - ((acceptedChars b).take k).length)
        (by simp only [List.length_append]; omega) hk' (by omega)
      refine ⟨m + 1, by omega, by simp; omega, ?_, ?_, ?_⟩
      · rw [stream_take_succ, acceptedChars_append, List.length_append]
        omega
      · intro j hj
        cases j with
        | zero => simpa [stream, acceptedChars, accepted] using hk
        | succ j =>
          rw [stream_take_succ, acceptedChars_append, List.length_append]
          have := hmleast j (by omega)
          omega
      · simp only [reads, List.map_cons, List.cons_append] at hstep ⊢
        rw [hstep]
        simp only [reads] at hrun
        rw [hrun, stream_cons, acceptedChars_append, List.take_append_eq_append_take,
          List.append_assoc]
        have hsub : k - ((acceptedChars b).take k).length = k - (acceptedChars b).length := by
          omega
        rw [hsub]
        simp

theorem cryptoRandomString_no_panic (n : Int) (src : Entropy) :
    cryptoRandomString n src ≠ .error .indexOutOfRange := by
  by_cases hn : n ≤ 0
  · rw [cryptoRandomString, if_pos hn]
    simp
  · rw [cryptoRandomString, if_neg hn]
    have h := readLoop_no_panic n.toNat src [] n.toNat (by simp)
    simpa using h

theorem accepted_stream_take_le (blocks : List (List Byte)) (k : Nat) :
    (accepted (stream (blocks.take k))).length ≤ (accepted (stream blocks)).length := by
  have hsplit : stream blocks = stream (blocks.take k) ++ stream (blocks.drop k) := by
    rw [stream, stream, stream, ← List.flatten_append, List.take_append_drop]
  rw [hsplit, accepted, accepted, List.filter_append, List.length_append]
  omega

/-- C19. For every `n` and every content of the entropy script, no index of
`cryptoRandomString` goes out of range: the run never ends in an
index-out-of-range panic, so every write `out[i]` had `i` below the length `n`
of `out`, within one block and across blocks; and every lookup `charset[b%62]`
uses an index below the length of `charset`. -/
theorem cryptoRandomString_index_safe (n : Int) (src : Entropy) :
    cryptoRandomString n src ≠ .error .indexOutOfRange
      ∧ ∀ b : Byte, b.val % 62 < charset.length ∧ charset[b.val % 62]? = some (charOf b) := by
  refine ⟨cryptoRandomString_no_panic n src, fun b => ⟨?_, charset_lookup b⟩⟩
  rw [charset_length]
  omega

/-- C20. For every `n > 0` and every run of successful reads, if the first `k`
blocks together hold at least `n` bytes below 248 then `cryptoRandomString(n)`
returns after exactly `m` reads, where `m` is the least number of blocks
holding `n` such bytes (so `1 <= m <= k`): the script handed back is the one
given minus its first `m` blocks. The length of the blocks plays no part. -/
theorem cryptoRandomString_reads_least (n : Nat) (hn : 0 < n) (blocks : List (List Byte))
    (tl : Entropy) (k : Nat) (hk : n ≤ (accepted (stream (blocks.take k))).length) :
    ∃ m, 1 ≤ m ∧ m ≤ k ∧ m ≤ blocks.length
      ∧ n ≤ (accepted (stream (blocks.take m))).length
      ∧ (∀ j, j < m → (accepted (stream (blocks.take j))).length < n)
      ∧ ∃ s, cryptoRandomString (n : Int) (reads blocks ++ tl) =
          .ok ⟨s, none, reads (blocks.drop m) ++ tl⟩ := by
  have hpos : ¬ ((n : Int) ≤ 0) := by omega
  have hall : n ≤ (acceptedChars (stream blocks)).length := by
    rw [acceptedChars_length]
    exact le_trans hk (accepted_stream_take_le blocks k)
  obtain ⟨m, hm1, hmlen, hmsupply, hmleast, hrun⟩ :=
    readLoop_reads n blocks tl [] n (by simp) hn hall
  simp only [acceptedChars_length] at hmsupply hmleast
  refine ⟨m, hm1, ?_, hmlen, hmsupply, hmleast, (acceptedChars (stream blocks)).take n, ?_⟩
  · by_contra hlt
    have := hmleast k (by omega)
    omega
  · simp only [List.nil_append, List.length_nil] at hrun
    rw [cryptoRandomString, if_neg hpos, Int.toNat_ofNat, hrun]

/-- Witness of C20: `n = 2` and three four-byte blocks; the first block holds
one accepted byte and the second completes the string, so two reads are made
and the third block is handed back unread. -/
theorem cryptoRandomString_reads_least_witness :
    ∃ m, 1 ≤ m ∧ m ≤ 3 ∧ m ≤ [[250, 0, 255, 255], [61, 62, 1, 2], [3, 4, 5, (6 : Byte)]].length
      ∧ 2 ≤ (accepted (stream
          ([[250, 0, 255, 255], [61, 62, 1, 2], [3, 4, 5, (6 : Byte)]].take m))).length
      ∧ (∀ j, j < m → (accepted (stream
          ([[250, 0, 255, 255], [61, 62, 1, 2], [3, 4, 5, (6 : Byte)]].take j))).length < 2)
      ∧ ∃ s, cryptoRandomString ((2 : Nat) : Int)
            (reads [[250, 0, 255, 255], [61, 62, 1, 2], [3, 4, 5, 6]] ++ []) =
          .ok ⟨s, none,
            reads ([[250, 0, 255, 255], [61, 62, 1, 2], [3, 4, 5, (6 : Byte)]].drop m) ++ []⟩ :=
  cryptoRandomString_reads_least 2 (by decide)
    [[250, 0, 255, 255], [61, 62, 1, 2], [3, 4, 5, 6]] [] 3 (by decide)

/-- C17. The acceptance threshold `max` of `cryptoRandomString` is 248, which
is `62 * 4` with 62 the length of `charset`, and it is the largest multiple of
that length that does not exceed 256, the number of byte values. -/
theorem max_largest_multiple :
    max = 248 ∧ charset.length = 62 ∧ max = charset.length * 4 ∧ max ≤ 256
      ∧ charset.length ∣ max
      ∧ ∀ m, charset.length ∣ m → m ≤ 256 → m ≤ max := by
  rw [charset_length]
  refine ⟨rfl, rfl, rfl, by decide, ⟨4, rfl⟩, ?_⟩
  rintro m ⟨q, rfl⟩ hm
  simp only [max]
  omega

/-! ## The formatter: dispatch -/

theorem generateDocId_no_panic (env : Env) (pfx format : GoString) :
    generateDocId env pfx format ≠ .error .indexOutOfRange := by
  unfold generateDocId
  have h10 := cryptoRandomString_no_panic 10 env.entropy
  have h16 := cryptoRandomString_no_panic 16 env.entropy
  by_cases huuid : format = "uuid".toList
  · simp [huuid]
  · by_cases hts : format = "timestamp".toList
    · simp [huuid, hts]
    · by_cases hshort : format = "short".toList
      · simp only [if_neg huuid, if_neg hts, if_pos hshort]
        cases hrun : cryptoRandomString 10 env.entropy with
        | error f => rw [hrun] at h10; simpa using h10
        | ok r => simp
      · by_cases hcrypto : format = "crypto".toList
        · simp only [if_neg huuid, if_neg hts, if_neg hshort, if_pos hcrypto]
          cases hrun : cryptoRandomString 16 env.entropy with
          | error f => rw [hrun] at h16; simpa using h16
          | ok r => simp
        · simp only [if_neg huuid, if_neg hts, if_neg hshort, if_neg hcrypto]
          cases hrun : cryptoRandomString 10 env.entropy with
          | error f => rw [hrun] at h10; simpa using h10
          | ok r => simp

/-- The branches of `generateDocId` that call the suffix generator, as one
expression in the length they pass. -/
theorem generateDocId_dispatch (env : Env) (pfx format : GoString)
    (huuid : format ≠ "uuid".toList) (hts : format ≠ "timestamp".toList) :
    generateDocId env pfx format
      = (cryptoRandomString (dispatchedLength format : Nat) env.entropy).map
          (fun r => sprintfColon (normalizePrefix env.lowerTable pfx) r.str) := by
  cases hrun : cryptoRandomString (dispatchedLength format : Nat) env.entropy with
  | ok r => rw [generateDocId_random env pfx format huuid hts r hrun]; rfl
  | error f =>
    unfold generateDocId
    simp only [if_neg huuid, if_neg hts]
    by_cases hshort : format = "short".toList
    · have hlen : dispatchedLength format = 10 := by rw [hshort]; decide
      rw [hlen] at hrun
      have hrun10 : cryptoRandomString 10 env.entropy = .error f := hrun
      simp only [if_pos hshort, hrun10]
      rfl
    · by_cases hcrypto : format = "crypto".toList
      · have hlen : dispatchedLength format = 16 := by rw [hcrypto]; decide
        rw [hlen] at hrun
        have hrun16 : cryptoRandomString 16 env.entropy = .error f := hrun
        simp only [if_neg hshort, if_pos hcrypto, hrun16]
        rfl
      · have hlen : dispatchedLength format = 10 := by
          rw [dispatchedLength, if_neg hcrypto]
        rw [hlen] at hrun
        have hrun10 : cryptoRandomString 10 env.entropy = .error f := hrun
        simp only [if_neg hshort, if_neg hcrypto, hrun10]
        rfl

/-- C11. For every prefix and every format other than "uuid", "timestamp" and
"crypto" (the empty string and spellings such as "UUID" included),
`DocID(prefix, format)` is, on the same entropy script, exactly
`DocID(prefix, "short")`; it never panics; and when the reads supply ten
accepted bytes the identifier is the normalized prefix, a colon and ten
characters of `charset`. -/
theorem DocID_fallback_short (env : Env) (pfx format : GoString)
    (huuid : format ≠ "uuid".toList) (hts : format ≠ "timestamp".toList)
    (hcrypto : format ≠ "crypto".toList) :
    DocID env pfx format = DocID env pfx "short".toList
      ∧ DocID env pfx format ≠ .error .indexOutOfRange
      ∧ (∀ (blocks : List (List Byte)) (tl : Entropy), env.entropy = reads blocks ++ tl →
          10 ≤ (accepted (stream blocks)).length →
          ∃ sfx, DocID env pfx format = .ok (normalizePrefix env.lowerTable pfx ++ ':' :: sfx)
            ∧ sfx.length = 10 ∧ ∀ c ∈ sfx, c ∈ charset) := by
  have hlen : dispatchedLength format = 10 := by rw [dispatchedLength, if_neg hcrypto]
  have hdisp := generateDocId_dispatch env pfx format huuid hts
  have hshort := generateDocId_dispatch env pfx "short".toList (by decide) (by decide)
  have hlen' : dispatchedLength "short".toList = 10 := by decide
  rw [hlen] at hdisp
  rw [hlen'] at hshort
  refine ⟨by rw [DocID, DocID, hdisp, hshort], generateDocId_no_panic env pfx format, ?_⟩
  intro blocks tl hsrc h
  obtain ⟨rest, hrun⟩ := cryptoRandomString_of_supply 10 (by decide) blocks tl h
  have hinv := cryptoRandomString_ok_inv 10 (by decide) _ _ hrun rfl
  rw [← hsrc] at hrun
  refine ⟨_, ?_, hinv.1, hinv.2⟩
  rw [DocID, hdisp, hrun]
  simp [Except.map, sprintfColon]

/-- Witness of C11: the format "UUID" (upper case) with prefix "device" on one
20-byte block of accepted bytes. -/
theorem DocID_fallback_short_witness :
    DocID ⟨"0-0".toList, 0, id, [.filled [0, 1, 2, 3, 4, 5, 6, 7, 8, 9, 10, 11, 12, 13, 14, 15,
        16, 17, 18, 19]]⟩ "device".toList "UUID".toList
      = DocID ⟨"0-0".toList, 0, id, [.filled [0, 1, 2, 3, 4, 5, 6, 7, 8, 9, 10, 11, 12, 13, 14,
        15, 16, 17, 18, 19]]⟩ "device".toList "short".toList
      ∧ DocID ⟨"0-0".toList, 0, id, [.filled [0, 1, 2, 3, 4, 5, 6, 7, 8, 9, 10, 11, 12, 13, 14,
        15, 16, 17, 18, 19]]⟩ "device".toList "UUID".toList = .ok "device:abcdefghij".toList :=
  ⟨(DocID_fallback_short ⟨"0-0".toList, 0, id, [.filled [0, 1, 2, 3, 4, 5, 6, 7, 8, 9, 10, 11,
      12, 13, 14, 15, 16, 17, 18, 19]]⟩ "device".toList "UUID".toList
    (by decide) (by decide) (by decide)).1, rfl⟩

/-- C16. For every prefix and every format, the non-positive-length error of
`cryptoRandomString` cannot arise from `DocID`. The formats "uuid" and
"timestamp" do not call it (the identifier does not depend on the entropy
script); every other format makes the one call `cryptoRandomString(n)` with
`n` the constant 10 or 16, positive, so the call runs the sampling loop and
not the guard `n <= 0`. -/
theorem DocID_length_positive (env : Env) (pfx format : GoString) :
    ((format = "uuid".toList ∨ format = "timestamp".toList) →
        ∀ src : Entropy,
          DocID ⟨env.uuidString, env.unixNano, env.lowerTable, src⟩ pfx format
            = DocID env pfx format)
      ∧ (format ≠ "uuid".toList → format ≠ "timestamp".toList →
          (dispatchedLength format = 10 ∨ dispatchedLength format = 16)
            ∧ (0 : Int) < (dispatchedLength format : Nat)
            ∧ DocID env pfx format
              = (cryptoRandomString (dispatchedLength format : Nat) env.entropy).map
                  (fun r => sprintfColon (normalizePrefix env.lowerTable pfx) r.str)
            ∧ cryptoRandomString (dispatchedLength format : Nat) env.entropy
              = readLoop (dispatchedLength format) env.entropy
                  (List.replicate (dispatchedLength format) zeroByte) 0) := by
  constructor
  · intro h src
    rcases h with h | h
    · simp [DocID, generateDocId, h]
    · have hne : ¬ ("timestamp".toList = "uuid".toList) := by decide
      simp [DocID, generateDocId, h, hne]
  · intro huuid hts
    have hlen : dispatchedLength format = 10 ∨ dispatchedLength format = 16 := by
      by_cases hcrypto : format = "crypto".toList
      · right; rw [dispatchedLength, if_pos hcrypto]
      · left; rw [dispatchedLength, if_neg hcrypto]
    have hpos : (0 : Int) < (dispatchedLength format : Nat) := by
      rcases hlen with h | h <;> rw [h] <;> decide
    refine ⟨hlen, hpos, generateDocId_dispatch env pfx format huuid hts, ?_⟩
    rw [cryptoRandomString, if_neg (by omega), Int.toNat_ofNat]

/-! ## Runes and lowercasing -/

theorem toNat_ofNat_of_lt (k : Nat) (h : k < 55296) : (Char.ofNat k).toNat = k := by
  have hv : k.isValidChar := Or.inl h
  simp only [Char.ofNat, hv, dite_true, Char.ofNatAux, Char.toNat]
  rfl

theorem toLowerRune_of_not_ascii (table : Char → Char) (c : Char) (h : 128 ≤ c.toNat) :
    toLowerRune table c = table c := by
  have : ¬ c.toNat < 128 := by omega
  rw [toLowerRune, if_neg this]

theorem toLowerRune_upper_toNat (table : Char → Char) (c : Char) (h1 : 65 ≤ c.toNat)
    (h2 : c.toNat ≤ 90) : (toLowerRune table c).toNat = c.toNat + 32 := by
  have hlt : c.toNat < 128 := by omega
  have hup : 'A'.toNat ≤ c.toNat ∧ c.toNat ≤ 'Z'.toNat := ⟨h1, h2⟩
  rw [toLowerRune, if_pos hlt, if_pos hup]
  exact toNat_ofNat_of_lt _ (by omega)

theorem toLowerRune_of_not_upper (table : Char → Char) (c : Char) (hlt : c.toNat < 128)
    (h : ¬ (65 ≤ c.toNat ∧ c.toNat ≤ 90)) : toLowerRune table c = c := by
  have hup : ¬ ('A'.toNat ≤ c.toNat ∧ c.toNat ≤ 'Z'.toNat) := h
  rw [toLowerRune, if_pos hlt, if_neg hup]

/-- Lowercasing never produces a rune `x` outside `a`..`z` from another rune,
provided the Unicode table does not. -/
theorem toLowerRune_ne (table : Char → Char) (x : Char)
    (hx : x.toNat < 97 ∨ 122 < x.toNat)
    (htable : ∀ c : Char, 128 ≤ c.toNat → table c ≠ x) (c : Char) (hc : c ≠ x) :
    toLowerRune table c ≠ x := by
  by_cases hlt : c.toNat < 128
  · by_cases hup : 65 ≤ c.toNat ∧ c.toNat ≤ 90
    · intro heq
      have := toLowerRune_upper_toNat table c hup.1 hup.2
      rw [heq] at this
      omega
    · rw [toLowerRune_of_not_upper table c hlt hup]
      exact hc
  · rw [toLowerRune_of_not_ascii table c (by omega)]
    exact htable c (by omega)

theorem toLowerRune_idem (table : Char → Char)
    (hidem : ∀ c : Char, 128 ≤ c.toNat → toLowerRune table (table c) = table c) (c : Char) :
    toLowerRune table (toLowerRune table c) = toLowerRune table c := by
  by_cases hlt : c.toNat < 128
  · by_cases hup : 65 ≤ c.toNat ∧ c.toNat ≤ 90
    · have h := toLowerRune_upper_toNat table c hup.1 hup.2
      exact toLowerRune_of_not_upper table _ (by omega) (by omega)
    · rw [toLowerRune_of_not_upper table c hlt hup, toLowerRune_of_not_upper table c hlt hup]
  · rw [toLowerRune_of_not_ascii table c (by omega)]
    exact hidem c (by omega)

theorem normalizePrefix_eq_map (table : Char → Char) (pfx : GoString) :
    normalizePrefix table pfx
      = (if pfx = [] then "doc".toList else pfx).map
          (fun c => if c = ' ' then '_' else toLowerRune table c) := by
  by_cases h : pfx = []
  · rw [if_pos h, h, normalizePrefix_nil]
    simp [toLowerRune]
  · rw [if_neg h, normalizePrefix_of_ne_nil _ _ h]

theorem normalizePrefix_ne_nil (table : Char → Char) (pfx : GoString) :
    normalizePrefix table pfx ≠ [] := by
  rw [normalizePrefix_eq_map]
  by_cases h : pfx = []
  · simp [h]
  · simp [h]

theorem normalizePrefix_idem (table : Char → Char)
    (hspace : ∀ c : Char, 128 ≤ c.toNat → table c ≠ ' ')
    (hidem : ∀ c : Char, 128 ≤ c.toNat → toLowerRune table (table c) = table c)
    (pfx : GoString) :
    normalizePrefix table (normalizePrefix table pfx) = normalizePrefix table pfx := by
  rw [normalizePrefix_of_ne_nil table _ (normalizePrefix_ne_nil table pfx)]
  rw [normalizePrefix_eq_map, List.map_map]
  apply List.map_congr_left
  intro c _
  simp only [Function.comp]
  by_cases hc : c = ' '
  · simp [hc, toLowerRune_underscore]
  · have hne := toLowerRune_ne table ' ' (Or.inl (by decide)) hspace c hc
    simp only [if_neg hc, if_neg hne]
    exact toLowerRune_idem table hidem c

/-- C18. The order of the code (replace every space by an underscore, then
lowercase) gives, for every prefix, the same normalized prefix as the order of
the specification (lowercase, then replace every space by an underscore), the
empty prefix having become "doc" first in both. It rests on one fact about
`unicode.ToLower`: no rune above U+007F is lowercased to a space. -/
theorem normalizePrefix_eq_spec (table : Char → Char)
    (hspace : ∀ c : Char, 128 ≤ c.toNat → table c ≠ ' ') (pfx : GoString) :
    normalizePrefix table pfx = normalizePrefixSpec table pfx := by
  simp only [normalizePrefix, normalizePrefixSpec, toLower, replaceAll, List.map_map]
  apply List.map_congr_left
  intro c _
  simp only [Function.comp]
  by_cases hc : c = ' '
  · have hsp : toLowerRune table ' ' = ' ' :=
      toLowerRune_of_not_upper table ' ' (by decide) (by decide)
    simp [hc, hsp, toLowerRune_underscore]
  · have hne := toLowerRune_ne table ' ' (Or.inl (by decide)) hspace c hc
    simp only [if_neg hc, if_neg hne]

/-- Witness of C18: the identity table and the prefix "Invoice Data". -/
theorem normalizePrefix_eq_spec_witness :
    normalizePrefix id "Invoice Data".toList = normalizePrefixSpec id "Invoice Data".toList :=
  normalizePrefix_eq_spec id
    (fun c h heq => by
      have hc : c = ' ' := heq
      rw [hc] at h
      exact absurd h (by decide))
    "Invoice Data".toList

/-- C15. Prefix normalization is idempotent: for every prefix `p`, normalizing
the normalized prefix gives the normalized prefix again, so `DocID(N, format)`
with `N` the normalized form of `p` is the identifier `DocID(p, format)`, same
prefix segment included; "Invoice Data" and "invoice_data" both give
"invoice_data", and "" and "doc" both give "doc". It rests on two facts about
`unicode.ToLower` above U+007F: it never yields a space, and lowercasing its
result changes nothing. -/
theorem normalizePrefix_idempotent (env : Env)
    (hspace : ∀ c : Char, 128 ≤ c.toNat → env.lowerTable c ≠ ' ')
    (hidem : ∀ c : Char, 128 ≤ c.toNat →
      toLowerRune env.lowerTable (env.lowerTable c) = env.lowerTable c)
    (pfx format : GoString) :
    normalizePrefix env.lowerTable (normalizePrefix env.lowerTable pfx)
        = normalizePrefix env.lowerTable pfx
      ∧ DocID env (normalizePrefix env.lowerTable pfx) format = DocID env pfx format
      ∧ normalizePrefix env.lowerTable "Invoice Data".toList = "invoice_data".toList
      ∧ normalizePrefix env.lowerTable "invoice_data".toList = "invoice_data".toList
      ∧ normalizePrefix env.lowerTable [] = "doc".toList
      ∧ normalizePrefix env.lowerTable "doc".toList = "doc".toList := by
  have h := normalizePrefix_idem env.lowerTable hspace hidem pfx
  refine ⟨h, ?_, rfl, rfl, rfl, rfl⟩
  simp only [DocID, generateDocId, h]

/-- Witness of C15: the identity table, prefix "Invoice Data", format "uuid". -/
theorem normalizePrefix_idempotent_witness :
    normalizePrefix id (normalizePrefix id "Invoice Data".toList)
        = normalizePrefix id "Invoice Data".toList
      ∧ DocID ⟨"0-0".toList, 0, id, []⟩ (normalizePrefix id "Invoice Data".toList) "uuid".toList
        = DocID ⟨"0-0".toList, 0, id, []⟩ "Invoice Data".toList "uuid".toList :=
  have h := normalizePrefix_idempotent ⟨"0-0".toList, 0, id, []⟩
    (fun c h heq => by
      have hc : c = ' ' := heq
      rw [hc] at h
      exact absurd h (by decide))
    (fun c h => toLowerRune_of_not_ascii id c h)
    "Invoice Data".toList "uuid".toList
  ⟨h.1, h.2.1⟩

/-! ## The formatter: separator and suffix shapes -/

theorem DocID_eq_suffixStrategy (env : Env) (pfx format : GoString) :
    DocID env pfx format
      = (suffixStrategy env format).map
          (fun sfx => normalizePrefix env.lowerTable pfx ++ ':' :: sfx) := by
  unfold DocID generateDocId suffixStrategy sprintfColon
  by_cases huuid : format = "uuid".toList
  · simp [huuid, Except.map]
  · by_cases hts : format = "timestamp".toList
    · simp [huuid, hts, Except.map]
    · by_cases hshort : format = "short".toList
      · have hcrypto : format ≠ "crypto".toList := by rw [hshort]; decide
        simp only [if_neg huuid, if_neg hts, if_pos hshort, if_neg hcrypto]
        cases cryptoRandomString 10 env.entropy <;> simp [Except.map]
      · by_cases hcrypto : format = "crypto".toList
        · simp only [if_neg huuid, if_neg hts, if_neg hshort, if_pos hcrypto]
          cases cryptoRandomString 16 env.entropy <;> simp [Except.map]
        · simp only [if_neg huuid, if_neg hts, if_neg hshort, if_neg hcrypto]
          cases cryptoRandomString 10 env.entropy <;> simp [Except.map]

/-- Whatever the script holds and whatever error comes with it, the string the
outer loop returns holds characters of `charset` only. -/
theorem readLoop_str_mem (n : Nat) : ∀ (src : Entropy) (w : List Char) (k : Nat) (r : StrResult),
    w.length + k = n → (∀ c ∈ w, c ∈ charset) →
    readLoop n src (w ++ List.replicate k zeroByte) w.length = .ok r →
    ∀ c ∈ r.str, c ∈ charset := by
  intro src
  induction src with
  | nil =>
    intro w k r hn hw hrun
    by_cases hi : w.length < n
    · simp [readLoop, hi] at hrun
    · have hk0 : k = 0 := by omega
      subst hk0
      rw [readLoop_done n _ _ _ (by omega)] at hrun
      cases hrun
      simpa using hw
  | cons r0 src ih =>
    intro w k r hn hw hrun
    rcases Nat.eq_zero_or_pos k with hk0 | hkpos
    · subst hk0
      rw [readLoop_done n _ _ _ (by omega)] at hrun
      cases hrun
      simpa using hw
    · cases r0 with
      | failed e =>
        rw [readLoop_failed n e src _ _ (by omega)] at hrun
        cases hrun
        simp
      | filled buf =>
        rw [readLoop_filled n buf src w k hkpos hn] at hrun
        have hlen : ((acceptedChars buf).take k).length = min k (acceptedChars buf).length :=
          List.length_take _ _
        refine ih (w ++ (acceptedChars buf).take k) _ r
          (by simp only [List.length_append]; omega) ?_ hrun
        intro c hc
        rcases List.mem_append.mp hc with h | h
        · exact hw c h
        · exact acceptedChars_subset buf c (List.mem_of_mem_take h)

theorem cryptoRandomString_str_mem (n : Int) (src : Entropy) (r : StrResult)
    (hrun : cryptoRandomString n src = .ok r) : ∀ c ∈ r.str, c ∈ charset := by
  by_cases hn : n ≤ 0
  · rw [cryptoRandomString, if_pos hn] at hrun
    cases hrun
    simp
  · rw [cryptoRandomString, if_neg hn] at hrun
    exact readLoop_str_mem n.toNat src [] n.toNat r (by simp) (by simp) (by simpa using hrun)

theorem colon_not_mem_charset : ':' ∉ charset := by decide

theorem digitChar_toNat (d : Nat) (h : d < 10) : (digitChar d).toNat = 48 + d := by
  have h0 : '0'.toNat = 48 := rfl
  rw [digitChar, h0]
  exact toNat_ofNat_of_lt _ (by omega)

theorem formatNat_digits (k : Nat) : ∀ c ∈ formatNat k, 48 ≤ c.toNat ∧ c.toNat ≤ 57 := by
  intro c hc
  by_cases hk : k = 0
  · rw [formatNat, if_pos hk] at hc
    have : c = '0' := by simpa using hc
    rw [this]
    decide
  · rw [formatNat, if_neg hk] at hc
    obtain ⟨d, hd, rfl⟩ := List.mem_map.mp hc
    have hlt : d < 10 := Nat.digits_lt_base (by decide) (List.mem_reverse.mp hd)
    rw [digitChar_toNat d hlt]
    omega

theorem colon_not_mem_formatInt (v : Int) : ':' ∉ formatInt v := by
  intro hmem
  have hnat : ∀ k, ':' ∉ formatNat k := by
    intro k hk
    have := formatNat_digits k ':' hk
    have h58 : ':'.toNat = 58 := rfl
    omega
  by_cases hv : v < 0
  · rw [formatInt, if_pos hv] at hmem
    rcases List.mem_cons.mp hmem with h | h
    · exact absurd h (by decide)
    · exact hnat _ h
  · rw [formatInt, if_neg hv] at hmem
    exact hnat _ hmem

theorem colon_not_mem_normalizePrefix (table : Char → Char) (pfx : GoString)
    (hp : ':' ∉ pfx) (htable : ∀ c : Char, 128 ≤ c.toNat → table c ≠ ':') :
    ':' ∉ normalizePrefix table pfx := by
  rw [normalizePrefix_eq_map]
  intro hmem
  obtain ⟨c, hc, heq⟩ := List.mem_map.mp hmem
  have hcne : c ≠ ':' := by
    by_cases h : pfx = []
    · rw [if_pos h] at hc
      intro hcc
      rw [hcc] at hc
      exact absurd hc (by decide)
    · rw [if_neg h] at hc
      intro hcc
      rw [hcc] at hc
      exact hp hc
  by_cases hsp : c = ' '
  · rw [if_pos hsp] at heq
    exact absurd heq (by decide)
  · rw [if_neg hsp] at heq
    exact toLowerRune_ne table ':' (Or.inl (by decide)) htable c hcne heq

theorem colon_not_mem_suffix (env : Env) (format sfx : GoString)
    (huuid : ':' ∉ env.uuidString) (h : suffixStrategy env format = .ok sfx) : ':' ∉ sfx := by
  unfold suffixStrategy at h
  have hrand : ∀ n : Int, (cryptoRandomString n env.entropy).map (fun r => r.str) = .ok sfx →
      ':' ∉ sfx := by
    intro n hn hmem
    cases hrun : cryptoRandomString n env.entropy with
    | error f => rw [hrun] at hn; simp [Except.map] at hn
    | ok r =>
      rw [hrun] at hn
      simp only [Except.map] at hn
      cases hn
      exact colon_not_mem_charset (cryptoRandomString_str_mem n _ r hrun _ hmem)
  by_cases h1 : format = "uuid".toList
  · rw [if_pos h1] at h
    cases h
    exact huuid
  · by_cases h2 : format = "timestamp".toList
    · rw [if_neg h1, if_pos h2] at h
      cases h
      exact colon_not_mem_formatInt _
    · by_cases h3 : format = "crypto".toList
      · rw [if_neg h1, if_neg h2, if_pos h3] at h
        exact hrand 16 h
      · rw [if_neg h1, if_neg h2, if_neg h3] at h
        exact hrand 10 h

theorem cutAt_first (sep : Char) (b : GoString) : ∀ a : GoString, sep ∉ a →
    cutAt sep (a ++ sep :: b) = some (a, b) := by
  intro a
  induction a with
  | nil => intro _; simp [cutAt]
  | cons c cs ih =>
    intro h
    have hc : c ≠ sep := fun hcs => h (by rw [hcs]; exact List.mem_cons_self _ _)
    have hcs : sep ∉ cs := fun hmem => h (List.mem_cons_of_mem _ hmem)
    simp [cutAt, hc, ih hcs]

/-- C13, on the code: a colon in the prefix is passed through, so
`DocID("a:b", "uuid")` holds two colons. -/
theorem DocID_prefix_colon_two_colons :
    DocID ⟨"123e4567-e89b-12d3-a456-426614174000".toList, 0, id, []⟩ "a:b".toList "uuid".toList
        = .ok "a:b:123e4567-e89b-12d3-a456-426614174000".toList
      ∧ List.count ':' "a:b:123e4567-e89b-12d3-a456-426614174000".toList = 2 :=
  ⟨rfl, by decide⟩

/-- C13, as the code has it. For every prefix that holds no colon and every
format, the identifier `DocID` returns holds exactly one colon, the one between
the normalized prefix and the suffix, neither of which holds a colon. The
collaborators are taken to be colon-free too: the text of the unique
identifier, and `unicode.ToLower` above U+007F. -/
theorem DocID_one_colon (env : Env) (pfx format ident : GoString)
    (hp : ':' ∉ pfx) (htable : ∀ c : Char, 128 ≤ c.toNat → env.lowerTable c ≠ ':')
    (huuid : ':' ∉ env.uuidString) (hrun : DocID env pfx format = .ok ident) :
    List.count ':' ident = 1
      ∧ ∃ sfx, ident = normalizePrefix env.lowerTable pfx ++ ':' :: sfx
          ∧ ':' ∉ normalizePrefix env.lowerTable pfx ∧ ':' ∉ sfx := by
  rw [DocID_eq_suffixStrategy] at hrun
  cases hs : suffixStrategy env format with
  | error f => rw [hs] at hrun; simp [Except.map] at hrun
  | ok sfx =>
    rw [hs] at hrun
    simp only [Except.map] at hrun
    have hid : ident = normalizePrefix env.lowerTable pfx ++ ':' :: sfx := by
      injection hrun with h
      exact h.symm
    have hN := colon_not_mem_normalizePrefix env.lowerTable pfx hp htable
    have hS := colon_not_mem_suffix env format sfx huuid hs
    refine ⟨?_, sfx, hid, hN, hS⟩
    rw [hid, List.count_append, List.count_cons_self, List.count_eq_zero_of_not_mem hN,
      List.count_eq_zero_of_not_mem hS]

/-- Witness of the amended C13: prefix "Invoice Data", format "uuid". -/
theorem DocID_one_colon_witness :
    List.count ':' "invoice_data:123e4567-e89b-12d3-a456-426614174000".toList = 1
      ∧ ∃ sfx, "invoice_data:123e4567-e89b-12d3-a456-426614174000".toList
            = normalizePrefix id "Invoice Data".toList ++ ':' :: sfx
          ∧ ':' ∉ normalizePrefix id "Invoice Data".toList ∧ ':' ∉ sfx :=
  DocID_one_colon ⟨"123e4567-e89b-12d3-a456-426614174000".toList, 0, id, []⟩
    "Invoice Data".toList "uuid".toList
    "invoice_data:123e4567-e89b-12d3-a456-426614174000".toList (by decide)
    (fun c h heq => by
      have hc : c = ':' := heq
      rw [hc] at h
      exact absurd h (by decide))
    (by decide) rfl

/-- C14. For every prefix that holds no colon and every format, splitting
`DocID(prefix, format)` at its first colon, as `strings.SplitN(id, ":", 2)`
does, yields exactly two parts: the normalized prefix and the suffix the
format's strategy produced. `unicode.ToLower` above U+007F is taken never to
yield a colon. -/
theorem DocID_splitN (env : Env) (pfx format : GoString)
    (hp : ':' ∉ pfx) (htable : ∀ c : Char, 128 ≤ c.toNat → env.lowerTable c ≠ ':') :
    (DocID env pfx format).map (fun ident => splitN2 ident ':')
      = (suffixStrategy env format).map
          (fun sfx => [normalizePrefix env.lowerTable pfx, sfx]) := by
  have hN := colon_not_mem_normalizePrefix env.lowerTable pfx hp htable
  rw [DocID_eq_suffixStrategy]
  cases suffixStrategy env format with
  | error f => rfl
  | ok sfx =>
    simp only [Except.map, splitN2, cutAt_first ':' sfx _ hN]

/-- Witness of C14: prefix "Invoice Data", format "short", one 20-byte block. -/
theorem DocID_splitN_witness :
    (DocID ⟨"0-0".toList, 0, id, [.filled [0, 1, 2, 3, 4, 5, 6, 7, 8, 9, 10, 11, 12, 13, 14, 15,
        16, 17, 18, 19]]⟩ "Invoice Data".toList "short".toList).map
        (fun ident => splitN2 ident ':')
      = (suffixStrategy ⟨"0-0".toList, 0, id, [.filled [0, 1, 2, 3, 4, 5, 6, 7, 8, 9, 10, 11, 12,
          13, 14, 15, 16, 17, 18, 19]]⟩ "short".toList).map
          (fun sfx => [normalizePrefix id "Invoice Data".toList, sfx]) :=
  DocID_splitN ⟨"0-0".toList, 0, id, [.filled [0, 1, 2, 3, 4, 5, 6, 7, 8, 9, 10, 11, 12, 13, 14,
      15, 16, 17, 18, 19]]⟩ "Invoice Data".toList "short".toList (by decide)
    (fun c h heq => by
      have hc : c = ':' := heq
      rw [hc] at h
      exact absurd h (by decide))

/-! ## The formatter: the timestamp round trip -/

theorem parseDigits_map_digitChar : ∀ (ds : List Nat) (acc : Nat), (∀ d ∈ ds, d < 10) →
    parseDigits (ds.map digitChar) acc = some (ds.foldl (fun a d => a * 10 + d) acc) := by
  intro ds
  induction ds with
  | nil => intro acc _; rfl
  | cons d ds ih =>
    intro acc h
    have hd : d < 10 := h d (List.mem_cons_self _ _)
    have hnat := digitChar_toNat d hd
    have h0 : '0'.toNat = 48 := rfl
    have h9 : '9'.toNat = 57 := rfl
    have hrange : '0'.toNat ≤ (digitChar d).toNat ∧ (digitChar d).toNat ≤ '9'.toNat := by
      rw [hnat, h0, h9]; omega
    have hval : (digitChar d).toNat - '0'.toNat = d := by rw [hnat, h0]; omega
    rw [List.map_cons, parseDigits, if_pos hrange, hval, List.foldl_cons]
    exact ih _ (fun x hx => h x (List.mem_cons_of_mem _ hx))

theorem foldl_reverse_digits : ∀ ds : List Nat,
    ds.reverse.foldl (fun a d => a * 10 + d) 0 = Nat.ofDigits 10 ds := by
  intro ds
  induction ds with
  | nil => rfl
  | cons d ds ih =>
    rw [List.reverse_cons, List.foldl_append, ih, Nat.ofDigits_cons]
    simp only [List.foldl_cons, List.foldl_nil]
    omega

theorem parseDigits_formatNat (k : Nat) : parseDigits (formatNat k) 0 = some k := by
  by_cases hk : k = 0
  · rw [formatNat, if_pos hk, hk]
    rfl
  · rw [formatNat, if_neg hk, parseDigits_map_digitChar _ 0
      (fun d hd => Nat.digits_lt_base (by decide) (List.mem_reverse.mp hd)),
      foldl_reverse_digits, Nat.ofDigits_digits]

theorem formatNat_ne_nil (k : Nat) : formatNat k ≠ [] := by
  by_cases hk : k = 0
  · rw [formatNat, if_pos hk]
    simp
  · rw [formatNat, if_neg hk]
    simp [Nat.digits_ne_nil_iff_ne_zero, hk]

theorem parseInt_formatInt (v : Int) (hlo : -(2 : Int) ^ 63 ≤ v) (hhi : v < (2 : Int) ^ 63) :
    parseInt (formatInt v) = some v := by
  have hrange : ∀ w : Int, w = v → (-(2 : Int) ^ 63 ≤ w ∧ w < (2 : Int) ^ 63) :=
    fun w hw => by rw [hw]; exact ⟨hlo, hhi⟩
  by_cases hv : v < 0
  · have hval : -((v.natAbs : Nat) : Int) = v := by omega
    rw [formatInt, if_pos hv, parseInt]
    simp only [true_or, if_true, if_neg (formatNat_ne_nil v.natAbs), parseDigits_formatNat,
      hval, if_pos (hrange v rfl)]
  · have hval : ((v.natAbs : Nat) : Int) = v := by omega
    obtain ⟨c, r, hcr⟩ := List.exists_cons_of_ne_nil (formatNat_ne_nil v.natAbs)
    have hdig := formatNat_digits v.natAbs c (by rw [hcr]; exact List.mem_cons_self _ _)
    have hm : c ≠ '-' := by
      intro h; rw [h] at hdig; exact absurd hdig.1 (by decide)
    have hp : c ≠ '+' := by
      intro h; rw [h] at hdig; exact absurd hdig.1 (by decide)
    have hsign : ¬ (c = '-' ∨ c = '+') := fun h => h.elim hm hp
    have hparse := parseDigits_formatNat v.natAbs
    rw [hcr] at hparse
    rw [formatInt, if_neg hv, hcr, parseInt]
    simp only [if_neg hsign, if_neg (List.cons_ne_nil c r), hparse, if_neg hm, hval,
      if_pos (hrange v rfl)]

/-- C12. For every prefix: with format "uuid" the suffix of `DocID` is the text
of the unique-identifier collaborator, unchanged; with format "timestamp" it is
the decimal rendering of the clock value, and parsing that rendering as a
base-10 signed 64-bit integer gives back the clock value, for every clock value
in the 64-bit range, negative ones included. -/
theorem DocID_uuid_timestamp (env : Env) (pfx : GoString)
    (hlo : -(2 : Int) ^ 63 ≤ env.unixNano) (hhi : env.unixNano < (2 : Int) ^ 63) :
    DocID env pfx "uuid".toList
        = .ok (normalizePrefix env.lowerTable pfx ++ ':' :: env.uuidString)
      ∧ DocID env pfx "timestamp".toList
        = .ok (normalizePrefix env.lowerTable pfx ++ ':' :: formatInt env.unixNano)
      ∧ parseInt (formatInt env.unixNano) = some env.unixNano := by
  refine ⟨?_, ?_, parseInt_formatInt env.unixNano hlo hhi⟩
  · rw [DocID_eq_suffixStrategy]
    rfl
  · rw [DocID_eq_suffixStrategy]
    rfl

/-- Witness of C12: prefix "report", a negative clock value. -/
theorem DocID_uuid_timestamp_witness :
    DocID ⟨"123e4567-e89b-12d3-a456-426614174000".toList, -1700000000000000000, id, []⟩
        "report".toList "uuid".toList
        = .ok (normalizePrefix id "report".toList
            ++ ':' :: "123e4567-e89b-12d3-a456-426614174000".toList)
      ∧ DocID ⟨"123e4567-e89b-12d3-a456-426614174000".toList, -1700000000000000000, id, []⟩
        "report".toList "timestamp".toList
        = .ok (normalizePrefix id "report".toList ++ ':' :: formatInt (-1700000000000000000))
      ∧ parseInt (formatInt (-1700000000000000000)) = some (-1700000000000000000) :=
  DocID_uuid_timestamp ⟨"123e4567-e89b-12d3-a456-426614174000".toList, -1700000000000000000,
    id, []⟩ "report".toList (by norm_num) (by norm_num)

/-! ## The formatter: a failing entropy source

Since Go 1.24 `crypto/rand.Read` returns no error: a source that fails aborts
the process inside the call. The calls that returned are then all successful
ones, and the script ends with the last of them. -/

/-- A script of successful reads that ends before `k` more characters were
accepted leaves the outer loop without a return. -/
theorem readLoop_starved (n : Nat) : ∀ (blocks : List (List Byte)) (w : List Char) (k : Nat),
    w.length + k = n → (acceptedChars (stream blocks)).length < k →
    readLoop n (reads blocks) (w ++ List.replicate k zeroByte) w.length =
      .error .entropyScriptExhausted := by
  intro blocks
  induction blocks with
  | nil =>
    intro w k hn hk
    have hi : w.length < n := by omega
    simp [reads, readLoop, hi]
  | cons b bs ih =>
    intro w k hn hk
    rw [stream_cons, acceptedChars_append, List.length_append] at hk
    simp only [reads, List.map_cons]
    rw [readLoop_filled n b _ w k (by omega) hn]
    have hlen : ((acceptedChars b).take k).length = min k (acceptedChars b).length :=
      List.length_take _ _
    have := ih (w ++ (acceptedChars b).take k) (k - ((acceptedChars b).take k).length)
      (by simp only [List.length_append]; omega) (by omega)
    simpa only [reads] using this

theorem cryptoRandomString_starved (n : Nat) (blocks : List (List Byte))
    (hshort : (accepted (stream blocks)).length < n) :
    cryptoRandomString (n : Int) (reads blocks) = .error .entropyScriptExhausted := by
  have hpos : ¬ ((n : Int) ≤ 0) := by omega
  have h := readLoop_starved n blocks [] n (by simp)
    (by rw [acceptedChars_length]; exact hshort)
  simp only [List.nil_append, List.length_nil] at h
  rw [cryptoRandomString, if_neg hpos, Int.toNat_ofNat, h]

theorem dispatchedLength_pos (format : GoString) : 0 < dispatchedLength format := by
  by_cases h : format = "crypto".toList
  · rw [dispatchedLength, if_pos h]; decide
  · rw [dispatchedLength, if_neg h]; decide

/-- C7. For every prefix and every format dispatched to the suffix generator
(any format but "uuid" and "timestamp"), on an entropy source whose reads
return no error (the contract of `rand.Read` since Go 1.24, where a failing
source aborts the process inside the call): if the source stops before the
dispatched number of characters has been accepted, `DocID` returns no
identifier at all, the run ending with the aborted read; and every identifier
`DocID` does return has a suffix of the full dispatched length over `charset`,
never an empty, truncated or zero-filled one. -/
theorem DocID_failure_not_swallowed (u : GoString) (t : Int) (table : Char → Char)
    (pfx format : GoString) (blocks : List (List Byte))
    (huuid : format ≠ "uuid".toList) (hts : format ≠ "timestamp".toList) :
    ((accepted (stream blocks)).length < dispatchedLength format →
        DocID ⟨u, t, table, reads blocks⟩ pfx format = .error .entropyScriptExhausted)
      ∧ (∀ ident, DocID ⟨u, t, table, reads blocks⟩ pfx format = .ok ident →
          ∃ sfx, ident = normalizePrefix table pfx ++ ':' :: sfx
            ∧ sfx.length = dispatchedLength format
            ∧ (∀ c ∈ sfx, c ∈ charset) ∧ zeroByte ∉ sfx) := by
  have hdisp := generateDocId_dispatch ⟨u, t, table, reads blocks⟩ pfx format huuid hts
  have hstarved : (accepted (stream blocks)).length < dispatchedLength format →
      DocID ⟨u, t, table, reads blocks⟩ pfx format = .error .entropyScriptExhausted := by
    intro hshort
    rw [DocID, hdisp]
    simp only [cryptoRandomString_starved _ blocks hshort]
    rfl
  refine ⟨hstarved, ?_⟩
  intro ident hrun
  by_cases hshort : (accepted (stream blocks)).length < dispatchedLength format
  · rw [hstarved hshort] at hrun
    cases hrun
  · have hsupply : dispatchedLength format ≤ (accepted (stream blocks)).length := by omega
    obtain ⟨rest, hcrs⟩ := cryptoRandomString_of_supply (dispatchedLength format)
      (dispatchedLength_pos format) blocks [] hsupply
    rw [List.append_nil] at hcrs
    have hinv := cryptoRandomString_ok_inv (dispatchedLength format)
      (dispatchedLength_pos format) _ _ hcrs rfl
    rw [DocID, hdisp] at hrun
    simp only [hcrs, Except.map, sprintfColon] at hrun
    refine ⟨_, ?_, hinv.1, hinv.2, fun hz => zeroByte_not_mem_charset (hinv.2 _ hz)⟩
    injection hrun with h
    rw [← h]
    simp

/-- Witness of C7: format "short" with prefix "user"; the source delivers one
20-byte block holding three accepted bytes and then stops. -/
theorem DocID_failure_not_swallowed_witness :
    DocID ⟨"0-0".toList, 0, id,
        reads [[1, 2, 3, 250, 251, 252, 253, 254, 255, 255, 255, 255, 255, 255, 255, 255,
                255, 255, 255, 255]]⟩ "user".toList "short".toList
      = .error .entropyScriptExhausted :=
  (DocID_failure_not_swallowed "0-0".toList 0 id "user".toList "short".toList
      [[1, 2, 3, 250, 251, 252, 253, 254, 255, 255, 255, 255, 255, 255, 255, 255,
        255, 255, 255, 255]] (by decide) (by decide)).1 (by decide)
end Idgen
